import Mathlib

/-!
# Shallow embedding of the `nfs` GNFS factoring engine

Lean embedding of the Rust sources (`src/prime_test.rs`, `src/nt.rs`,
`src/mod_sqrt.rs`, `src/nfs.rs`, `src/linalg.rs`, `src/sqrt.rs`).
Machine integers are modelled as `Nat`/`Int`; all arithmetic in the embedded
code stays far below `2^64`, so no wrap-around occurs in the source and plain
`Nat`/`Int` arithmetic is exact.  Rust loops are modelled by structural
recursion on an explicit fuel argument; in every case the fuel chosen is
provably sufficient, so the embedded function computes the same value as
the Rust loop.
-/

namespace NFS

/-- Loop body of `mod_exp` from `src/prime_test.rs` (identical copies live in
`src/nt.rs` and `src/mod_sqrt.rs`): right-to-left binary exponentiation.
State `(a, b, c)`; the Rust loop runs while `b ≠ 0` and halves `b` each
iteration, so any `fuel ≥ b` runs the loop to completion. -/
def modExpGo (n : ℕ) : ℕ → ℕ → ℕ → ℕ → ℕ
  | 0, _, _, c => c
  | fuel + 1, a, b, c =>
    if b = 0 then c
    else modExpGo n fuel ((a * a) % n) (b / 2) (if b % 2 = 1 then (c * a) % n else c)

/-- `mod_exp(a, b, n)` from `src/prime_test.rs` / `src/nt.rs` / `src/mod_sqrt.rs`. -/
def mod_exp (a b n : ℕ) : ℕ := modExpGo n b a b 1

theorem modExpGo_zero (n : ℕ) (fuel a c : ℕ) : modExpGo n fuel a 0 c = c := by
  cases fuel with
  | zero => rfl
  | succ fuel => simp [modExpGo]

theorem modExpGo_eq (n : ℕ) :
    ∀ fuel a b c, 1 ≤ b → b ≤ fuel → modExpGo n fuel a b c = (c * a ^ b) % n := by
  intro fuel
  induction fuel with
  | zero => intro a b c hb hfuel; omega
  | succ fuel ih =>
    intro a b c hb hfuel
    simp only [modExpGo]
    have hbne : ¬ b = 0 := by omega
    simp only [hbne, if_false]
    by_cases hb1 : b = 1
    · subst hb1
      norm_num
      rw [modExpGo_zero]
    · have h2 : 1 ≤ b / 2 := by omega
      have h3 : b / 2 ≤ fuel := by omega
      rw [ih _ _ _ h2 h3]
      have hsq : ((a * a) % n) ^ (b / 2) ≡ (a * a) ^ (b / 2) [MOD n] :=
        (Nat.mod_modEq _ _).pow _
      by_cases hpar : b % 2 = 1
      · rw [if_pos hpar]
        have h4 : ((c * a) % n) * ((a * a) % n) ^ (b / 2) ≡
            (c * a) * (a * a) ^ (b / 2) [MOD n] := (Nat.mod_modEq _ _).mul hsq
        have h5 : (c * a) * (a * a) ^ (b / 2) = c * a ^ b := by
          rw [← sq, ← pow_mul, mul_assoc, ← pow_succ']
          congr 2
          omega
        exact h5 ▸ h4
      · rw [if_neg hpar]
        have h4 : c * ((a * a) % n) ^ (b / 2) ≡ c * (a * a) ^ (b / 2) [MOD n] :=
          hsq.mul_left c
        have h5 : c * (a * a) ^ (b / 2) = c * a ^ b := by
          rw [← sq, ← pow_mul]
          congr 2
          omega
        exact h5 ▸ h4

theorem mod_exp_eq (a b n : ℕ) (hb : 1 ≤ b) : mod_exp a b n = a ^ b % n := by
  rw [mod_exp, modExpGo_eq n b a b 1 hb le_rfl, one_mul]

/-- `u32::trailing_zeros` loop (fuel-based); with `fuel = 32` this matches
Rust's `trailing_zeros` on `u32` values, including `trailing_zeros(0) = 32`. -/
def trailingZerosGo : ℕ → ℕ → ℕ
  | 0, _ => 0
  | fuel + 1, x => if x % 2 = 1 then 0 else 1 + trailingZerosGo fuel (x / 2)

/-- `u32::trailing_zeros`. -/
def trailingZeros (x : ℕ) : ℕ := trailingZerosGo 32 x

theorem pow_trailingZerosGo_dvd : ∀ fuel x, 2 ^ trailingZerosGo fuel x ∣ x := by
  intro fuel
  induction fuel with
  | zero => intro x; simp [trailingZerosGo]
  | succ fuel ih =>
    intro x
    rw [trailingZerosGo]
    by_cases h : x % 2 = 1
    · simp [h]
    · simp only [h, if_false]
      have h2 : 2 ∣ x := by omega
      obtain ⟨y, rfl⟩ := h2
      have := ih y
      rw [Nat.mul_div_cancel_left y (by norm_num : 0 < 2)]
      rw [pow_add, pow_one]
      exact mul_dvd_mul_left 2 (by simpa using ih y)

theorem pow_trailingZeros_dvd (x : ℕ) : 2 ^ trailingZeros x ∣ x :=
  pow_trailingZerosGo_dvd 32 x

/-- The squaring loop inside `miller_rabin` / `is_prime`: runs `k` times; on
each pass computes `y = x² mod n`, returns `false` early when a nontrivial
square root of 1 is seen, and finally reports whether `x == 1`. -/
def mrInner (n : ℕ) : ℕ → ℕ → Bool
  | 0, x => x == 1
  | k + 1, x =>
    let y := (x * x) % n
    if y == 1 && x != 1 && x != n - 1 then false
    else mrInner n k y

/-- One Miller–Rabin base check as performed inside the loops of
`prime_test.rs::miller_rabin` and `nt.rs::is_prime` (after the base has been
reduced mod `n`). -/
def mrBase (n a : ℕ) : Bool :=
  mrInner n (trailingZeros (n - 1)) (mod_exp a ((n - 1) / 2 ^ trailingZeros (n - 1)) n)

def MILLER_RABIN_BASES : List ℕ := [15, 7363882082, 992620450144556]

/-- `miller_rabin(n)` from `src/prime_test.rs`: `n = 2` special-cased, bases
reduced mod `n`, bases that reduce to 0 skipped. -/
def miller_rabin (n : ℕ) : Bool :=
  if n = 2 then true
  else MILLER_RABIN_BASES.all fun a => a % n == 0 || mrBase n (a % n)

/-- `is_prime(n)` from `src/nt.rs`: same bases, but no `n = 2` special case and
no skipping of bases that reduce to 0. -/
def is_prime (n : ℕ) : Bool :=
  MILLER_RABIN_BASES.all fun a => mrBase n (a % n)

/-- C9: `is_prime` in `src/nt.rs` returns `false` on the primes 2, 3 and 5;
base 15 reduces to 0 mod 3 and mod 5, base 7363882082 reduces to 0 mod 2,
and such zero bases are not skipped (nor is `n = 2` special-cased). -/
theorem is_prime_false_on_small_primes :
    is_prime 2 = false ∧ is_prime 3 = false ∧ is_prime 5 = false ∧
    Nat.Prime 2 ∧ Nat.Prime 3 ∧ Nat.Prime 5 ∧
    15 % 3 = 0 ∧ 15 % 5 = 0 ∧ 7363882082 % 2 = 0 := by
  refine ⟨by decide, by decide, by decide, by norm_num, by norm_num, by norm_num,
    by norm_num, by norm_num, by norm_num⟩

/-! ## `norm` from `src/nfs.rs` (claim C3)

An `MpPolynomial` (defined in `polynomial.rs`, outside `src/`) enters `norm`
only through `degree()` and `coefficients_ref().iter().take(d + 1)`; it is
modelled as its coefficient list `[c_0, …, c_d]`, so `degree = length - 1`.
rug's `Integer` division truncates toward zero, i.e. `Int.tdiv`. -/

/-- The loop of `norm`: `result += c * (u * v); u *= a; v /= -b`. -/
def normGo (a m : ℤ) : List ℤ → ℤ → ℤ → ℤ → ℤ
  | [], _, _, result => result
  | c :: rest, u, v, result => normGo a m rest (u * a) (Int.tdiv v m) (result + c * (u * v))

/-- `norm(f, a, b)` from `src/nfs.rs`: `u = 1`, `v = (-b)^d`, then the loop
over the `d + 1` coefficients. -/
def norm (f : List ℤ) (a : ℤ) (b : ℕ) : ℤ :=
  normGo a (-(b : ℤ)) f 1 ((-(b : ℤ)) ^ (f.length - 1)) 0

/-- The formula the claim asserts for `norm`:
`N_f(a, b) = b^d · f(a/b) = Σ_i c_i · a^i · b^(d-i)`. -/
def specNormFormula (f : List ℤ) (a : ℤ) (b : ℕ) : ℤ :=
  ∑ j ∈ Finset.range f.length, f.getD j 0 * a ^ j * (b : ℤ) ^ (f.length - 1 - j)

theorem normGo_cons (a m c : ℤ) (rest : List ℤ) (u v r : ℤ) :
    normGo a m (c :: rest) u v r = normGo a m rest (u * a) (Int.tdiv v m) (r + c * (u * v)) :=
  rfl

theorem normGo_eq (a m : ℤ) (hm : m ≠ 0) :
    ∀ l : List ℤ, ∀ u r : ℤ,
      normGo a m l u (m ^ (l.length - 1)) r =
        r + ∑ j ∈ Finset.range l.length, l.getD j 0 * u * a ^ j * m ^ (l.length - 1 - j) := by
  intro l
  induction l with
  | nil => simp [normGo]
  | cons c rest ih =>
    intro u r
    cases rest with
    | nil => simp [normGo]
    | cons c2 rest2 =>
      have hlen : (c :: c2 :: rest2).length - 1 = rest2.length + 1 := by simp
      have hv : Int.tdiv (m ^ ((c :: c2 :: rest2).length - 1)) m =
          m ^ ((c2 :: rest2).length - 1) := by
        rw [hlen]
        simp only [List.length_cons, Nat.add_sub_cancel]
        rw [pow_succ]
        exact Int.mul_tdiv_cancel _ hm
      rw [normGo_cons, hv, ih (u * a) (r + c * (u * m ^ ((c :: c2 :: rest2).length - 1)))]
      rw [hlen]
      conv_rhs => rw [List.length_cons (α := ℤ) c (c2 :: rest2), Finset.sum_range_succ']
      simp only [List.getD_cons_succ, List.getD_cons_zero, pow_zero, List.length_cons,
        Nat.add_sub_cancel]
      rw [add_assoc, add_comm (c * (u * m ^ (rest2.length + 1)))]
      have hterm : ∀ x ∈ Finset.range (rest2.length + 1),
          (c2 :: rest2).getD x 0 * (u * a) * a ^ x * m ^ (rest2.length - x)
            = (c2 :: rest2).getD x 0 * u * a ^ (x + 1) * m ^ (rest2.length + 1 - (x + 1)) := by
        intro x hx
        have hx2 : rest2.length + 1 - (x + 1) = rest2.length - x := by omega
        rw [hx2]
        ring
      rw [Finset.sum_congr rfl hterm]
      simp only [Nat.sub_zero, mul_one]
      ring

/-- C3 (amended): `norm(f, a, b)` computes `Σ_i c_i · a^i · (-b)^(d-i)`,
i.e. `(-b)^d · f(a / (-b))`, not `Σ_i c_i · a^i · b^(d-i)`. -/
theorem norm_eq_alternating (f : List ℤ) (a : ℤ) (b : ℕ) (hb : 1 ≤ b) :
    norm f a b = ∑ j ∈ Finset.range f.length,
      f.getD j 0 * a ^ j * (-(b : ℤ)) ^ (f.length - 1 - j) := by
  have hm : -(b : ℤ) ≠ 0 := by
    simp only [ne_eq, neg_eq_zero, Nat.cast_eq_zero]
    omega
  rw [norm, normGo_eq a _ hm f 1 0, zero_add]
  apply Finset.sum_congr rfl
  intro j hj
  ring

/-- C3 (counterexample): with `f(x) = 1 + x` (degree 1), `a = 1`, `b = 2`,
the code returns `1·(-2) + 1·1 = -1`, while the claimed formula
`Σ_i c_i · a^i · b^(d-i)` gives `1·2 + 1·1 = 3`. -/
theorem norm_ne_specNormFormula : norm [1, 1] 1 2 ≠ specNormFormula [1, 1] 1 2 := by
  decide

/-- Witness for `norm_eq_alternating` at `f = [1, 1]`, `a = 1`, `b = 2`. -/
theorem norm_eq_alternating_witness :
    (1 ≤ 2) ∧ norm [1, 1] 1 2 = ∑ j ∈ Finset.range ([1, 1] : List ℤ).length,
      ([1, 1] : List ℤ).getD j 0 * 1 ^ j * (-(2 : ℤ)) ^ (([1, 1] : List ℤ).length - 1 - j) :=
  ⟨by norm_num, norm_eq_alternating [1, 1] 1 2 (by norm_num)⟩

/-! ## `line_sieve` from `src/nfs.rs` (claim C4)

Sieve cells are `i8` in the source; the claim concerns which indices are
updated, so cells are modelled as `ℤ` (the `i8` additions do not overflow for
the tiny logarithm summands used at the claim's scale, and the update
positions are independent of the cell type). -/

/-- `ilog2_rounded(x) = (ilog2(x²) + 1) >> 1` from `src/nfs.rs`. -/
def ilog2_rounded (x : ℕ) : ℕ := ((x * x).log2 + 1) >>> 1

/-- The start index computed by `line_sieve`:
`(-(b·r mod p) + p - a₀) mod p` in `i64` arithmetic (`%` truncates, `Int.tmod`),
cast to `usize`, where `a₀ = -(S/2)`. -/
def sieveStart (p r b S : ℕ) : ℕ :=
  (Int.tmod (-(((b * r) % p : ℕ) : ℤ) + (p : ℤ) - -((S / 2 : ℕ) : ℤ)) (p : ℤ)).toNat

/-- The inner `while i < S` loop: indices `i, i+p, i+2p, …` below `S`.
The index grows by `p ≥ 1` each iteration, so `fuel = S` is enough. -/
def hitsGo (p S : ℕ) : ℕ → ℕ → List ℕ
  | 0, _ => []
  | fuel + 1, i => if i < S then i :: hitsGo p S fuel (i + p) else []

/-- All indices updated by `line_sieve` for one base entry `(p, r)`. -/
def hits (p r b S : ℕ) : List ℕ := hitsGo p S S (sieveStart p r b S)

/-- The per-entry body of `line_sieve`: skip the entry when `b mod p = 0`,
otherwise add `ilog2_rounded p` at every hit index. -/
def lineSieveEntry (b : ℕ) (arr : List ℤ) (pr : ℕ × ℕ) : List ℤ :=
  if b % pr.1 ≠ 0 then
    (hits pr.1 pr.2 b arr.length).foldl
      (fun A i => A.modify (· + (ilog2_rounded pr.1 : ℤ)) i) arr
  else arr

/-- `line_sieve(b, sieve_array, base)` from `src/nfs.rs`. -/
def line_sieve (b : ℕ) (arr : List ℤ) (base : List (ℕ × ℕ)) : List ℤ :=
  base.foldl (lineSieveEntry b) arr

theorem hitsGo_ge (p S : ℕ) :
    ∀ fuel j x, x ∈ hitsGo p S fuel j → j ≤ x := by
  intro fuel
  induction fuel with
  | zero => intro j x hx; simp [hitsGo] at hx
  | succ fuel ih =>
    intro j x hx
    rw [hitsGo] at hx
    by_cases hj : j < S
    · rw [if_pos hj] at hx
      rcases List.mem_cons.mp hx with h | h
      · omega
      · have := ih (j + p) x h
        omega
    · rw [if_neg hj] at hx
      simp at hx

theorem hitsGo_nodup (p S : ℕ) (hp : 1 ≤ p) :
    ∀ fuel j, (hitsGo p S fuel j).Nodup := by
  intro fuel
  induction fuel with
  | zero => intro j; simp [hitsGo]
  | succ fuel ih =>
    intro j
    rw [hitsGo]
    by_cases hj : j < S
    · rw [if_pos hj]
      refine List.nodup_cons.mpr ⟨?_, ih (j + p)⟩
      intro hmem
      have := hitsGo_ge p S fuel (j + p) j hmem
      omega
    · rw [if_neg hj]
      exact List.nodup_nil

theorem hitsGo_mem (p S : ℕ) (hp : 1 ≤ p) :
    ∀ fuel j, S ≤ fuel + j → ∀ i, i ∈ hitsGo p S fuel j ↔ ((∃ k, i = j + k * p) ∧ i < S) := by
  intro fuel
  induction fuel with
  | zero =>
    intro j hfuel i
    simp only [hitsGo, List.not_mem_nil, false_iff]
    rintro ⟨⟨k, rfl⟩, hlt⟩
    omega
  | succ fuel ih =>
    intro j hfuel i
    rw [hitsGo]
    by_cases hj : j < S
    · rw [if_pos hj, List.mem_cons, ih (j + p) (by omega) i]
      constructor
      · rintro (rfl | ⟨⟨k, rfl⟩, hlt⟩)
        · exact ⟨⟨0, by omega⟩, hj⟩
        · exact ⟨⟨k + 1, by ring⟩, hlt⟩
      · rintro ⟨⟨k, rfl⟩, hlt⟩
        cases k with
        | zero => left; omega
        | succ k => right; exact ⟨⟨k, by ring⟩, hlt⟩
    · rw [if_neg hj]
      simp only [List.not_mem_nil, false_iff]
      rintro ⟨⟨k, rfl⟩, hlt⟩
      omega

theorem foldl_modify_getD (c : ℤ) :
    ∀ (L : List ℕ) (arr : List ℤ) (i : ℕ), i < arr.length →
      (L.foldl (fun A j => A.modify (· + c) j) arr).getD i 0
        = arr.getD i 0 + (L.count i) * c := by
  intro L
  induction L with
  | nil => intro arr i hi; simp
  | cons j rest ih =>
    intro arr i hi
    rw [List.foldl_cons, ih _ i (by rw [List.length_modify]; exact hi)]
    have hmod : (arr.modify (· + c) j).getD i 0
        = arr.getD i 0 + if j = i then c else 0 := by
      rw [List.getD_eq_getElem?_getD, List.getElem?_modify, List.getD_eq_getElem?_getD]
      rw [List.getElem?_eq_getElem hi]
      by_cases h : j = i
      · simp [h]
      · simp [h]
    rw [hmod, List.count_cons]
    by_cases h : j = i
    · simp only [h, if_pos, beq_self_eq_true, if_true]
      push_cast
      ring
    · have h2 : (j == i) = false := beq_eq_false_iff_ne.mpr h
      simp only [h, if_false, h2]
      push_cast
      ring

/-- C4: for a factor-base entry `(p, r)` with `p` prime, `r < p`, `b ≥ 1` and
`b mod p ≠ 0`, `line_sieve` updates exactly the indices `i ∈ [0, S)` with
`a₀ + i ≡ -b·r (mod p)` where `a₀ = -(S/2)`; the start index lies in `[0, p)`
and satisfies the congruence (no prior reduction of `a₀` into `[0, p)` is
needed). -/
theorem line_sieve_updates (p r b S : ℕ) (arr : List ℤ) (hS : arr.length = S)
    (hp : Nat.Prime p) (hr : r < p) (hb : 1 ≤ b) (hbp : b % p ≠ 0) :
    (sieveStart p r b S < p ∧
      (-((S / 2 : ℕ) : ℤ) + (sieveStart p r b S : ℤ)) ≡ -((b : ℤ) * r) [ZMOD (p : ℤ)]) ∧
    (∀ i : ℕ, i ∈ hits p r b S ↔
      (i < S ∧ (-((S / 2 : ℕ) : ℤ) + (i : ℤ)) ≡ -((b : ℤ) * r) [ZMOD (p : ℤ)])) ∧
    (∀ i : ℕ, i < S →
      (lineSieveEntry b arr (p, r)).getD i 0 =
        arr.getD i 0 +
          if (-((S / 2 : ℕ) : ℤ) + (i : ℤ)) ≡ -((b : ℤ) * r) [ZMOD (p : ℤ)]
          then (ilog2_rounded p : ℤ) else 0) := by
  have hp2 : 2 ≤ p := hp.two_le
  have hp0 : (0 : ℤ) < (p : ℤ) := by exact_mod_cast Nat.lt_of_lt_of_le (by norm_num) hp2
  set M : ℕ := b * r with hMdef
  have hM : ((M : ℕ) : ℤ) = (b : ℤ) * r := by push_cast; rfl
  set X : ℤ := -((M % p : ℕ) : ℤ) + (p : ℤ) - -((S / 2 : ℕ) : ℤ) with hX
  have hXnn : 0 ≤ X := by
    have h1 : (M % p : ℕ) < p := Nat.mod_lt _ (by omega)
    have h2 : (0 : ℤ) ≤ ((S / 2 : ℕ) : ℤ) := Int.ofNat_nonneg _
    have h3 : ((M % p : ℕ) : ℤ) < (p : ℤ) := by exact_mod_cast h1
    omega
  have hstart : (sieveStart p r b S : ℤ) = X % (p : ℤ) := by
    rw [sieveStart, ← hMdef, ← hX, Int.tmod_eq_emod hXnn (le_of_lt hp0)]
    exact Int.toNat_of_nonneg (Int.emod_nonneg X (ne_of_gt hp0))
  have hstart_lt : sieveStart p r b S < p := by
    have := Int.emod_lt_of_pos X hp0
    omega
  have hbr : ((M % p : ℕ) : ℤ) ≡ (M : ℤ) [ZMOD (p : ℤ)] := by
    refine Int.ModEq.symm (Int.modEq_iff_dvd.mpr ⟨-((M / p : ℕ) : ℤ), ?_⟩)
    have hdm : p * (M / p) + M % p = M := Nat.div_add_mod M p
    have hdm2 : (p : ℤ) * ((M / p : ℕ) : ℤ) + ((M % p : ℕ) : ℤ) = (M : ℤ) := by
      exact_mod_cast hdm
    linarith
  have hpz : (p : ℤ) ≡ 0 [ZMOD (p : ℤ)] := Int.modEq_zero_iff_dvd.mpr (dvd_refl _)
  have hcong0 : X ≡ -((M : ℕ) : ℤ) + ((S / 2 : ℕ) : ℤ) [ZMOD (p : ℤ)] := by
    have h4 : X = -((M % p : ℕ) : ℤ) + (p : ℤ) + ((S / 2 : ℕ) : ℤ) := by rw [hX]; ring
    have h5 : -((M % p : ℕ) : ℤ) + (p : ℤ) + ((S / 2 : ℕ) : ℤ)
        ≡ -((M : ℕ) : ℤ) + 0 + ((S / 2 : ℕ) : ℤ) [ZMOD (p : ℤ)] :=
      (hbr.neg.add hpz).add_right _
    rw [h4]
    simpa using h5
  have hcong_start :
      (-((S / 2 : ℕ) : ℤ) + (sieveStart p r b S : ℤ)) ≡ -((b : ℤ) * r) [ZMOD (p : ℤ)] := by
    have h5 : (sieveStart p r b S : ℤ) ≡ X [ZMOD (p : ℤ)] := by
      rw [hstart]
      exact Int.emod_emod_of_dvd _ (dvd_refl _)
    have h6 := (h5.trans hcong0).add_left (-((S / 2 : ℕ) : ℤ))
    rw [← hM]
    calc (-((S / 2 : ℕ) : ℤ) + (sieveStart p r b S : ℤ))
        ≡ -((S / 2 : ℕ) : ℤ) + (-((M : ℕ) : ℤ) + ((S / 2 : ℕ) : ℤ)) [ZMOD (p : ℤ)] := h6
      _ = -((M : ℕ) : ℤ) := by ring
  have hmem : ∀ i : ℕ, i ∈ hits p r b S ↔
      (i < S ∧ (-((S / 2 : ℕ) : ℤ) + (i : ℤ)) ≡ -((b : ℤ) * r) [ZMOD (p : ℤ)]) := by
    intro i
    rw [hits, hitsGo_mem p S (by omega) S (sieveStart p r b S) (by omega) i]
    constructor
    · rintro ⟨⟨k, rfl⟩, hlt⟩
      refine ⟨hlt, ?_⟩
      have h7 : ((sieveStart p r b S + k * p : ℕ) : ℤ)
          ≡ (sieveStart p r b S : ℤ) [ZMOD (p : ℤ)] :=
        Int.modEq_iff_dvd.mpr ⟨-(k : ℤ), by push_cast; ring⟩
      exact ((h7.add_left _).trans hcong_start)
    · rintro ⟨hlt, hcong⟩
      refine ⟨?_, hlt⟩
      have h6 : (i : ℤ) ≡ (sieveStart p r b S : ℤ) [ZMOD (p : ℤ)] := by
        have h7 := (hcong.trans hcong_start.symm).add_left ((S / 2 : ℕ) : ℤ)
        calc (i : ℤ) = ((S / 2 : ℕ) : ℤ) + (-((S / 2 : ℕ) : ℤ) + (i : ℤ)) := by ring
          _ ≡ ((S / 2 : ℕ) : ℤ) + (-((S / 2 : ℕ) : ℤ) + (sieveStart p r b S : ℤ))
              [ZMOD (p : ℤ)] := h7
          _ = (sieveStart p r b S : ℤ) := by ring
      rcases Int.modEq_iff_dvd.mp h6 with ⟨k0, hk0⟩
      have hslt : (sieveStart p r b S : ℤ) < (p : ℤ) := by exact_mod_cast hstart_lt
      have hige : (0 : ℤ) ≤ (i : ℤ) := Int.ofNat_nonneg _
      have hk0le : k0 ≤ 0 := by
        by_contra hpos
        push_neg at hpos
        have h8 : (p : ℤ) * 1 ≤ (p : ℤ) * k0 :=
          mul_le_mul_of_nonneg_left (by omega) (le_of_lt hp0)
        rw [mul_one] at h8
        omega
      refine ⟨(-k0).toNat, ?_⟩
      have h10 : (((-k0).toNat : ℕ) : ℤ) = -k0 := Int.toNat_of_nonneg (by omega)
      have h11 : (i : ℤ) = (sieveStart p r b S : ℤ) + (((-k0).toNat : ℕ) : ℤ) * (p : ℤ) := by
        rw [h10]
        linarith
      exact_mod_cast h11
  refine ⟨⟨hstart_lt, hcong_start⟩, hmem, ?_⟩
  intro i hi
  rw [lineSieveEntry]
  simp only [ne_eq, hbp, not_false_eq_true, if_true, hS]
  rw [foldl_modify_getD _ _ arr i (by omega)]
  have hnodup : (hits p r b S).Nodup := hitsGo_nodup p S (by omega) S _
  by_cases hmem2 : i ∈ hits p r b S
  · have hcount : (hits p r b S).count i = 1 := List.count_eq_one_of_mem hnodup hmem2
    rw [hcount]
    have := (hmem i).mp hmem2
    rw [if_pos this.2]
    ring
  · have hcount : (hits p r b S).count i = 0 := List.count_eq_zero_of_not_mem hmem2
    rw [hcount]
    have : ¬ (-((S / 2 : ℕ) : ℤ) + (i : ℤ)) ≡ -((b : ℤ) * r) [ZMOD (p : ℤ)] := by
      intro hc
      exact hmem2 ((hmem i).mpr ⟨hi, hc⟩)
    rw [if_neg this]
    ring

/-- Witness for `line_sieve_updates` at `p = 5`, `r = 2`, `b = 3`, `S = 10`. -/
theorem line_sieve_updates_witness : sieveStart 5 2 3 10 < 5 ∧ Nat.Prime 5 ∧ 3 % 5 ≠ 0 :=
  ⟨(line_sieve_updates 5 2 3 10 (List.replicate 10 0) (by simp) (by norm_num) (by norm_num)
      (by norm_num) (by norm_num)).1.1, by norm_num, by norm_num⟩

/-! ## `mul_rational_integers` / `mul_algebraic_integers` from `src/sqrt.rs`
(claim C10)

Both functions recurse on slice halves `[..len/2)` and `[len/2..)` with no
base case for the empty slice; the call depth is modelled by an explicit fuel
argument, `none` meaning the recursion did not finish within that depth.  A
function that returns `none` for every fuel diverges. -/

/-- `mul_rational_integers(integers)` from `src/sqrt.rs` at recursion depth
at most `fuel`. -/
def mul_rational_integers (fuel : ℕ) (l : List ℤ) : Option ℤ :=
  match fuel with
  | 0 => none
  | fuel + 1 =>
    if l.length = 1 then some l.headI
    else
      (mul_rational_integers fuel (l.take (l.length / 2))).bind fun x =>
        (mul_rational_integers fuel (l.drop (l.length / 2))).bind fun y =>
          some (x * y)

/-- Modelled from the spec: `mul_algebraic_integers(integers, f)` from
`src/sqrt.rs` combines its slice with `f.mul_mod`, defined in `polynomial.rs`
which is not under `src/`; per the spec `mul_mod` is "multiply-modulo-f
(reduce the product by the leading-coefficient-normalized f)", i.e.
multiplication in ℤ[x]/(f), kept abstract here as a binary operation
`mulMod` (such multiplication is associative).  The recursion structure is
the source's. -/
def mul_algebraic_integers {α : Type} [Inhabited α] (mulMod : α → α → α) (fuel : ℕ)
    (l : List α) : Option α :=
  match fuel with
  | 0 => none
  | fuel + 1 =>
    if l.length = 1 then some l.headI
    else
      (mul_algebraic_integers mulMod fuel (l.take (l.length / 2))).bind fun x =>
        (mul_algebraic_integers mulMod fuel (l.drop (l.length / 2))).bind fun y =>
          some (mulMod x y)

theorem mul_rational_integers_nil : ∀ fuel, mul_rational_integers fuel [] = none := by
  intro fuel
  induction fuel with
  | zero => rfl
  | succ fuel ih =>
    rw [mul_rational_integers]
    simp only [List.length_nil, Nat.zero_div, List.take_nil, List.drop_nil, ih]
    rfl

theorem mul_algebraic_integers_nil {α : Type} [Inhabited α] (mulMod : α → α → α) :
    ∀ fuel, mul_algebraic_integers mulMod fuel [] = none := by
  intro fuel
  induction fuel with
  | zero => rfl
  | succ fuel ih =>
    rw [mul_algebraic_integers]
    simp only [List.length_nil, Nat.zero_div, List.take_nil, List.drop_nil, ih]
    rfl

theorem mul_rational_integers_eq_prod :
    ∀ fuel (l : List ℤ), l ≠ [] → l.length ≤ fuel →
      mul_rational_integers fuel l = some l.prod := by
  intro fuel
  induction fuel with
  | zero =>
    intro l hne hlen
    have : l.length ≠ 0 := fun h => hne (List.length_eq_zero.mp h)
    omega
  | succ fuel ih =>
    intro l hne hlen
    rw [mul_rational_integers]
    have hl0 : l.length ≠ 0 := fun h => hne (List.length_eq_zero.mp h)
    by_cases h1 : l.length = 1
    · rw [if_pos h1]
      rcases l with _ | ⟨a, t⟩
      · exact absurd rfl hne
      · have ht : t = [] := by
          simp only [List.length_cons] at h1
          exact List.length_eq_zero.mp (by omega)
        subst ht
        simp
    · rw [if_neg h1]
      have h2 : 2 ≤ l.length := by omega
      have htake : (l.take (l.length / 2)).length = l.length / 2 := by
        rw [List.length_take]
        omega
      have hdrop : (l.drop (l.length / 2)).length = l.length - l.length / 2 :=
        List.length_drop _ _
      rw [ih (l.take (l.length / 2)) (by
            intro h
            rw [h] at htake
            simp at htake
            omega)
          (by omega),
        ih (l.drop (l.length / 2)) (by
            intro h
            rw [h] at hdrop
            simp at hdrop
            omega)
          (by omega)]
      simp only [Option.some_bind]
      rw [← List.prod_append, List.take_append_drop]

theorem mul_algebraic_integers_eq_foldl {α : Type} [Inhabited α] (mulMod : α → α → α)
    (hA : Std.Associative mulMod) :
    ∀ fuel (a : α) (t : List α), (a :: t).length ≤ fuel →
      mul_algebraic_integers mulMod fuel (a :: t) = some (t.foldl mulMod a) := by
  letI : Std.Associative mulMod := hA
  have key : ∀ (l₁ l₂ : List α) (a b : α),
      mulMod (l₁.foldl mulMod a) (l₂.foldl mulMod b)
        = (l₁ ++ (b :: l₂)).foldl mulMod a := by
    intro l₁ l₂ a b
    rw [List.foldl_append, List.foldl_cons]
    exact List.foldl_assoc.symm
  intro fuel
  induction fuel with
  | zero => intro a t hlen; simp at hlen
  | succ fuel ih =>
    intro a t hlen
    rw [mul_algebraic_integers]
    by_cases h1 : (a :: t).length = 1
    · rw [if_pos h1]
      have ht : t = [] := by
        simp only [List.length_cons] at h1
        exact List.length_eq_zero.mp (by omega)
      subst ht
      simp
    · rw [if_neg h1]
      have hlc : (a :: t).length = t.length + 1 := List.length_cons a t
      have h2 : 2 ≤ (a :: t).length := by
        rw [hlc]
        rw [hlc] at h1
        omega
      have htake : ((a :: t).take ((a :: t).length / 2)).length = (a :: t).length / 2 := by
        rw [List.length_take]
        omega
      have hdrop : ((a :: t).drop ((a :: t).length / 2)).length
          = (a :: t).length - (a :: t).length / 2 := List.length_drop _ _
      obtain ⟨x, xs, hx⟩ : ∃ x xs, (a :: t).take ((a :: t).length / 2) = x :: xs := by
        rcases h : (a :: t).take ((a :: t).length / 2) with _ | ⟨x, xs⟩
        · rw [h] at htake
          simp at htake
          omega
        · exact ⟨x, xs, rfl⟩
      obtain ⟨y, ys, hy⟩ : ∃ y ys, (a :: t).drop ((a :: t).length / 2) = y :: ys := by
        rcases h : (a :: t).drop ((a :: t).length / 2) with _ | ⟨y, ys⟩
        · rw [h] at hdrop
          simp at hdrop
          omega
        · exact ⟨y, ys, rfl⟩
      have hxlen : (x :: xs).length ≤ fuel := by
        rw [← hx, htake]
        omega
      have hylen : (y :: ys).length ≤ fuel := by
        rw [← hy, hdrop]
        omega
      rw [hx, hy, ih x xs hxlen, ih y ys hylen]
      simp only [Option.some_bind]
      congr 1
      rw [key]
      have happ : (x :: xs) ++ (y :: ys) = a :: t := by
        rw [← hx, ← hy, List.take_append_drop]
      have h4 : x :: (xs ++ y :: ys) = a :: t := by
        rw [← List.cons_append]
        exact happ
      have h6 : x = a := List.head_eq_of_cons_eq h4
      have h3 : xs ++ y :: ys = t := List.tail_eq_of_cons_eq h4
      rw [h3, h6]

/-- C10: on a non-empty slice `mul_rational_integers` terminates (any recursion
depth `≥ length` suffices) and returns the product of the elements; likewise
`mul_algebraic_integers` returns the `mul_mod`-product; on the empty slice
the recursion never terminates, since the slice is split into an empty half
and the slice itself (every fuel yields `none`). -/
theorem mul_integers_divide_and_conquer :
    (∀ (l : List ℤ), l ≠ [] → ∀ fuel, l.length ≤ fuel →
        mul_rational_integers fuel l = some l.prod) ∧
    (∀ fuel, mul_rational_integers fuel [] = none) ∧
    (∀ {α : Type} [Inhabited α] (mulMod : α → α → α), Std.Associative mulMod →
      ∀ (a : α) (t : List α) (fuel : ℕ), (a :: t).length ≤ fuel →
        mul_algebraic_integers mulMod fuel (a :: t) = some (t.foldl mulMod a)) ∧
    (∀ {α : Type} [Inhabited α] (mulMod : α → α → α) (fuel : ℕ),
        mul_algebraic_integers mulMod fuel [] = none) := by
  refine ⟨?_, mul_rational_integers_nil, ?_, ?_⟩
  · intro l hne fuel hlen
    exact mul_rational_integers_eq_prod fuel l hne hlen
  · intro α _ mulMod hA a t fuel hlen
    exact mul_algebraic_integers_eq_foldl mulMod hA fuel a t hlen
  · intro α _ mulMod fuel
    exact mul_algebraic_integers_nil mulMod fuel

/-- Witness for `mul_integers_divide_and_conquer` on `[2, 3, 5]` and `[]`. -/
theorem mul_integers_divide_and_conquer_witness :
    mul_rational_integers 3 [2, 3, 5] = some 30 ∧
    mul_rational_integers 7 ([] : List ℤ) = none ∧
    mul_algebraic_integers (fun a b : ℤ => a * b) 3 [2, 3, 5] = some 30 := by
  refine ⟨?_, mul_integers_divide_and_conquer.2.1 7, ?_⟩
  · rw [mul_integers_divide_and_conquer.1 [2, 3, 5] (by decide) 3 (by decide)]
    rfl
  · rw [mul_integers_divide_and_conquer.2.2.1 (fun a b : ℤ => a * b) ⟨mul_assoc⟩ 2 [3, 5] 3
      (by decide)]
    rfl

/-! ## Factor emission at the end of `factorize` in `src/nfs.rs` (claim C8)

The dependency loop computes, for each dependency, a pair of big integers
`(a, b)` (rational and algebraic square roots); those pairs are the input
here.  For each pair the code swaps so `a ≥ b`, then for `x ∈ {a+b, a-b}`
reduces mod `n` (rug `%` truncates toward zero, `Int.tmod`), takes
`g = gcd(x mod n, n)` (nonnegative), and pushes `min(n/g, g)` when
`g ≠ 1 ∧ g ≠ n`; finally the list is sorted (`sort_unstable`) and
consecutive duplicates removed (`Vec::dedup`). -/

/-- One `gcd`-emission block of `factorize`. -/
def emitFactor (n : ℕ) (x : ℤ) : List ℕ :=
  let g := Int.gcd (Int.tmod x (n : ℤ)) (n : ℤ)
  if g ≠ 1 ∧ g ≠ n then [min (n / g) g] else []

/-- The two emission blocks for one dependency, after the `a < b` swap. -/
def dependencyFactors (n : ℕ) (c : ℤ × ℤ) : List ℕ :=
  emitFactor n (max c.1 c.2 + min c.1 c.2) ++ emitFactor n (max c.1 c.2 - min c.1 c.2)

/-- `Vec::dedup`: remove consecutive duplicates, keeping the first of each run. -/
def dedupConsec : List ℕ → List ℕ
  | [] => []
  | [a] => [a]
  | a :: b :: t => if a = b then dedupConsec (b :: t) else a :: dedupConsec (b :: t)

/-- The returned factor list of `factorize`: all emissions, sorted, deduped. -/
def factorizeFactors (n : ℕ) (cands : List (ℤ × ℤ)) : List ℕ :=
  dedupConsec ((cands.flatMap (dependencyFactors n)).insertionSort (· ≤ ·))

theorem dedupConsec_subset : ∀ (l : List ℕ) (x : ℕ), x ∈ dedupConsec l → x ∈ l := by
  intro l
  induction l with
  | nil => intro x hx; simpa [dedupConsec] using hx
  | cons a t ih =>
    intro x hx
    cases t with
    | nil => simpa [dedupConsec] using hx
    | cons b t2 =>
      rw [dedupConsec] at hx
      by_cases hab : a = b
      · rw [if_pos hab] at hx
        exact List.mem_cons_of_mem a (ih x hx)
      · rw [if_neg hab] at hx
        rcases List.mem_cons.mp hx with rfl | hx2
        · exact List.mem_cons_self _ _
        · exact List.mem_cons_of_mem a (ih x hx2)

theorem dedupConsec_sorted :
    ∀ l : List ℕ, l.Sorted (· ≤ ·) → (dedupConsec l).Sorted (· < ·) := by
  intro l
  induction l with
  | nil => intro h; simp [dedupConsec]
  | cons a t ih =>
    intro hs
    cases t with
    | nil => simp [dedupConsec]
    | cons b t2 =>
      rw [dedupConsec]
      have hs2 : (b :: t2).Sorted (· ≤ ·) := (List.sorted_cons.mp hs).2
      have hab : a ≤ b := (List.sorted_cons.mp hs).1 b (List.mem_cons_self _ _)
      by_cases heq : a = b
      · rw [if_pos heq]
        exact ih hs2
      · rw [if_neg heq]
        rw [List.sorted_cons]
        refine ⟨?_, ih hs2⟩
        intro x hx
        have hx2 : x ∈ b :: t2 := dedupConsec_subset _ x hx
        have hbx : b ≤ x := by
          rcases List.mem_cons.mp hx2 with rfl | hx3
          · exact le_refl x
          · exact (List.sorted_cons.mp hs2).1 x hx3
        omega

theorem emitFactor_mem (n : ℕ) (hn : 2 ≤ n) (x : ℤ) (e : ℕ) (he : e ∈ emitFactor n x) :
    ∃ g : ℕ, g ∣ n ∧ 1 < g ∧ g < n ∧ e = min (n / g) g ∧ e ∣ n ∧ 1 < e ∧ e < n := by
  rw [emitFactor] at he
  set g : ℕ := Int.gcd (Int.tmod x (n : ℤ)) (n : ℤ) with hgdef
  by_cases hcond : g ≠ 1 ∧ g ≠ n
  · rw [if_pos hcond] at he
    have he2 : e = min (n / g) g := by simpa using he
    have hdvd : g ∣ n := by
      have h1 : ((g : ℕ) : ℤ) ∣ (n : ℤ) := Int.gcd_dvd_right
      exact_mod_cast h1
    have hg0 : g ≠ 0 := by
      intro h0
      have h1 := Int.gcd_eq_zero_iff.mp (hgdef ▸ h0)
      have h2 : (n : ℤ) = 0 := h1.2
      have : n = 0 := by exact_mod_cast h2
      omega
    have hg1 : 1 < g := by
      rcases hcond with ⟨hne1, _⟩
      omega
    have hgn : g < n := by
      have hle : g ≤ n := Nat.le_of_dvd (by omega) hdvd
      rcases hcond with ⟨_, hne2⟩
      omega
    have hmul : g * (n / g) = n := Nat.mul_div_cancel' hdvd
    have hq_dvd : n / g ∣ n := Nat.div_dvd_of_dvd hdvd
    have hq1 : 1 < n / g := by
      by_contra hle
      push_neg at hle
      interval_cases h : n / g
      · simp at hmul
        omega
      · simp at hmul
        omega
    have hqn : n / g < n := by
      have hle : n / g ≤ n := Nat.div_le_self n g
      rcases eq_or_lt_of_le hle with heq | hlt
      · rw [heq] at hmul
        have h2 : g * n = 1 * n := by rw [hmul, one_mul]
        have hg1' : g = 1 := Nat.eq_of_mul_eq_mul_right (by omega) h2
        omega
      · exact hlt
    refine ⟨g, hdvd, hg1, hgn, he2, ?_, ?_, ?_⟩
    · rcases le_total (n / g) g with hmin | hmin
      · rw [he2, min_eq_left hmin]
        exact hq_dvd
      · rw [he2, min_eq_right hmin]
        exact hdvd
    · rw [he2]
      omega
    · rw [he2]
      rcases le_total (n / g) g with hmin | hmin
      · rw [min_eq_left hmin]
        exact hqn
      · rw [min_eq_right hmin]
        exact hgn
  · rw [if_neg hcond] at he
    simp at he

/-- C8: every returned factor is `min(g, n/g)` for a divisor `g` of `n` with
`1 < g < n` — hence itself a nontrivial proper divisor of `n` — and the
returned list is strictly increasing (sorted, no duplicates). -/
theorem factorize_factors_proper (n : ℕ) (cands : List (ℤ × ℤ)) (hn : 2 ≤ n) :
    (∀ e ∈ factorizeFactors n cands,
      ∃ g : ℕ, g ∣ n ∧ 1 < g ∧ g < n ∧ e = min (n / g) g ∧ e ∣ n ∧ 1 < e ∧ e < n) ∧
    (factorizeFactors n cands).Sorted (· < ·) := by
  constructor
  · intro e he
    have he1 : e ∈ (cands.flatMap (dependencyFactors n)).insertionSort (· ≤ ·) :=
      dedupConsec_subset _ e he
    have he2 : e ∈ cands.flatMap (dependencyFactors n) :=
      (List.perm_insertionSort _ _).mem_iff.mp he1
    rcases List.mem_flatMap.mp he2 with ⟨c, _, he3⟩
    rcases List.mem_append.mp he3 with he4 | he4
    · exact emitFactor_mem n hn _ e he4
    · exact emitFactor_mem n hn _ e he4
  · exact dedupConsec_sorted _ (List.sorted_insertionSort _ _)

/-- Witness for `factorize_factors_proper` at `n = 12`,
dependency values `(7, 1)`: the code emits `gcd(8,12) = 4 ↦ min(3,4) = 3` and
`gcd(6,12) = 6 ↦ min(2,6) = 2`, returning `[2, 3]`. -/
theorem factorize_factors_proper_witness :
    factorizeFactors 12 [(7, 1)] = [2, 3] ∧
    (factorizeFactors 12 [(7, 1)]).Sorted (· < ·) :=
  ⟨by decide, (factorize_factors_proper 12 [(7, 1)] (by norm_num)).2⟩

/-! ## Dense block-matrix product `A · Bᵀ` and `is_symmetric` from
`src/linalg.rs` (claim C7)

A `BlockMatrix` is a vector of `u64` rows, modelled as `List ℕ`; the bitwise
operations used here never exceed 64 bits for `u64` inputs, so `ℕ` semantics
are exact.  Rust `assert!`/`assert_eq!` failures are modelled as `none`. -/

/-- `u64::count_ones`, fuel-based over the 64 bits. -/
def popCountGo : ℕ → ℕ → ℕ
  | 0, _ => 0
  | fuel + 1, x => if x = 0 then 0 else x % 2 + popCountGo fuel (x / 2)

/-- `u64::count_ones` (exact for values below `2^64`). -/
def popCount (x : ℕ) : ℕ := popCountGo 64 x

/-- One result row of `A * B.transpose()`:
`res[i] |= ((A[i] & B[j]).count_ones() & 1) << j` for `j = 0, …, 63`. -/
def mulBTRow (b : List ℕ) (ai : ℕ) : ℕ :=
  (List.range 64).foldl (fun acc j => acc ||| ((popCount (ai &&& b.getD j 0) &&& 1) <<< j)) 0

/-- `Mul<&BlockMatrixTranspose> for &BlockMatrix` from `src/linalg.rs`:
`A` must have `n ≥ 64` rows and the owner of the transposed view exactly
`N = 64` rows, else an assertion fails (`none`). -/
def mulBlockTranspose (a b : List ℕ) : Option (List ℕ) :=
  if 64 ≤ a.length ∧ b.length = 64 then some (a.map (mulBTRow b)) else none

/-- `BlockMatrix::is_symmetric` from `src/linalg.rs`: asserts exactly 64 rows,
then compares bit `j` of row `i` with bit `i` of row `j` for all `i, j`. -/
def is_symmetric (m : List ℕ) : Option Bool :=
  if m.length = 64 then
    some ((List.range 64).all fun i => (List.range 64).all fun j =>
      (m.getD i 0 >>> j) &&& 1 == (m.getD j 0 >>> i) &&& 1)
  else none

theorem foldl_or_testBit (g : ℕ → ℕ) (hg : ∀ j, g j ≤ 1) :
    ∀ (L : List ℕ) (acc : ℕ) (k : ℕ),
      (L.foldl (fun acc j => acc ||| (g j <<< j)) acc).testBit k
        ↔ (acc.testBit k ∨ (k ∈ L ∧ g k = 1)) := by
  intro L
  induction L with
  | nil => intro acc k; simp
  | cons j L' ih =>
    intro acc k
    rw [List.foldl_cons, ih]
    have hshift : (g j <<< j).testBit k ↔ (j = k ∧ g k = 1) := by
      rw [Nat.testBit_shiftLeft]
      constructor
      · intro h
        have h1 : j ≤ k := by
          by_contra h2
          simp [Nat.not_le.mp h2] at h
          omega
        have h2 : (g j).testBit (k - j) = true := by
          simpa [h1] using h
        have h3 : k - j = 0 := by
          by_contra h4
          have h5 : g j < 2 ^ (k - j) := by
            have := hg j
            have h6 : 1 ≤ k - j := by omega
            have h7 : (2 : ℕ) ^ 1 ≤ 2 ^ (k - j) := Nat.pow_le_pow_right (by norm_num) h6
            omega
          rw [Nat.testBit_lt_two_pow h5] at h2
          exact Bool.false_ne_true h2
        have h4 : j = k := by omega
        subst h4
        rw [h3] at h2
        rcases Nat.le_one_iff_eq_zero_or_eq_one.mp (hg j) with h7 | h7
        · rw [h7] at h2
          simp at h2
        · exact ⟨rfl, h7⟩
      · rintro ⟨rfl, hgk⟩
        simp [hgk]
    rw [Nat.testBit_or]
    constructor
    · intro h
      rcases h with h | h
      · rcases Bool.or_eq_true_iff.mp h with h1 | h1
        · exact Or.inl h1
        · right
          rcases hshift.mp h1 with ⟨rfl, hk⟩
          exact ⟨List.mem_cons_self _ _, hk⟩
      · right
        exact ⟨List.mem_cons_of_mem _ h.1, h.2⟩
    · intro h
      rcases h with h | ⟨hmem, hk⟩
      · exact Or.inl (Bool.or_eq_true_iff.mpr (Or.inl h))
      · rcases List.mem_cons.mp hmem with rfl | hmem2
        · exact Or.inl (Bool.or_eq_true_iff.mpr (Or.inr (hshift.mpr ⟨rfl, hk⟩)))
        · exact Or.inr ⟨hmem2, hk⟩

theorem mulBTRow_testBit (b : List ℕ) (ai : ℕ) (k : ℕ) :
    (mulBTRow b ai).testBit k ↔ (k < 64 ∧ popCount (ai &&& b.getD k 0) &&& 1 = 1) := by
  rw [mulBTRow,
    foldl_or_testBit (fun j => popCount (ai &&& b.getD j 0) &&& 1)
      (fun j => Nat.and_le_right) (List.range 64) 0 k]
  simp [List.mem_range]

theorem shiftRight_and_one (x k : ℕ) :
    (x >>> k) &&& 1 = if x.testBit k then 1 else 0 := by
  have h1 : (x >>> k) &&& 1 = (x >>> k) % 2 := Nat.and_one_is_mod _
  have h2 : x.testBit k = (1 &&& (x >>> k) != 0) := by rw [Nat.testBit]
  rw [h1, h2, Nat.land_comm 1 (x >>> k), Nat.and_one_is_mod]
  rcases Nat.mod_two_eq_zero_or_one (x >>> k) with h | h
  · simp [h]
  · simp [h]

/-- C7 (counterexample): for `A` with `n = 65 ≥ 64` rows, the product
`A * A.transpose()` itself panics: the `Mul` impl asserts that the owner of
the transposed operand has exactly 64 rows.  (`is_symmetric` likewise asserts
exactly 64 rows.)  So the claim fails for every `n > 64`. -/
theorem mul_self_transpose_none_at_65 :
    mulBlockTranspose (List.replicate 65 0) (List.replicate 65 0) = none ∧
    is_symmetric (List.replicate 65 0) = none := by
  constructor
  · rw [mulBlockTranspose]
    simp
  · rw [is_symmetric]
    simp

/-- C7 (amended): for every dense block matrix `A` with exactly `n = 64`
rows, `A * A.transpose()` exists and `is_symmetric` returns `true` on it. -/
theorem mul_self_transpose_symmetric (a : List ℕ) (ha : a.length = 64) :
    ∃ m, mulBlockTranspose a a = some m ∧ is_symmetric m = some true := by
  refine ⟨a.map (mulBTRow a), ?_, ?_⟩
  · rw [mulBlockTranspose, if_pos ⟨by omega, ha⟩]
  · have hlen : (a.map (mulBTRow a)).length = 64 := by
      rw [List.length_map, ha]
    rw [is_symmetric, if_pos hlen]
    congr 1
    rw [List.all_eq_true]
    intro i hi
    rw [List.all_eq_true]
    intro j hj
    rw [List.mem_range] at hi hj
    have hget : ∀ k, k < 64 → (a.map (mulBTRow a)).getD k 0 = mulBTRow a (a.getD k 0) := by
      intro k hk
      rw [List.getD_eq_getElem?_getD, List.getElem?_map,
        List.getElem?_eq_getElem (by omega : k < a.length)]
      simp [List.getD_eq_getElem?_getD, List.getElem?_eq_getElem (by omega : k < a.length)]
    rw [hget i hi, hget j hj, beq_iff_eq, shiftRight_and_one, shiftRight_and_one]
    have hsym : (a.getD i 0 &&& a.getD j 0) = (a.getD j 0 &&& a.getD i 0) := Nat.land_comm _ _
    have h1 : (mulBTRow a (a.getD i 0)).testBit j
        ↔ (mulBTRow a (a.getD j 0)).testBit i := by
      rw [mulBTRow_testBit, mulBTRow_testBit, hsym]
      constructor
      · rintro ⟨_, h⟩; exact ⟨hi, h⟩
      · rintro ⟨_, h⟩; exact ⟨hj, h⟩
    by_cases hb : (mulBTRow a (a.getD i 0)).testBit j
    · rw [if_pos hb, if_pos (h1.mp hb)]
    · rw [if_neg hb, if_neg (fun hc => hb (h1.mpr hc))]

/-- Witness for `mul_self_transpose_symmetric` at `A = replicate 64 0`. -/
theorem mul_self_transpose_symmetric_witness :
    ∃ m, mulBlockTranspose (List.replicate 64 0) (List.replicate 64 0) = some m ∧
      is_symmetric m = some true :=
  mul_self_transpose_symmetric (List.replicate 64 0) (by simp)

/-! ## CSC matrix and `CSCᵀ · Dense` from `src/linalg.rs` (claim C6)

`CscMatrix { num_rows, end, ones }`: column `i`'s nonzero row indices occupy
`ones[end[i-1] .. end[i]]` (`end[-1] = 0`).  The `Mul` impl for the transpose
view keeps one cursor `j` running across all columns:
`for i in 0..n { while j < end[i] { res[i] ^= b[ones[j]]; j += 1 } }`.
(`end` is a Lean keyword, so the field is called `ends`.) -/

structure CscMatrix where
  num_rows : ℕ
  ends : List ℕ
  ones : List ℕ

/-- `res[i] ^= b[ones[j]]; j += 1` while `j < e`; returns `(res[i], j)`.
`j` rises by 1 per iteration, so `fuel = e` always suffices. -/
def cscTXorGo (ones b : List ℕ) (e : ℕ) : ℕ → ℕ → ℕ → ℕ × ℕ
  | 0, j, acc => (acc, j)
  | fuel + 1, j, acc =>
    if j < e then cscTXorGo ones b e fuel (j + 1) (acc ^^^ b.getD (ones.getD j 0) 0)
    else (acc, j)

/-- The column loop of `CSCᵀ · Dense`, threading the cursor `j`. -/
def cscTmulGo (ones b : List ℕ) : List ℕ → ℕ → List ℕ
  | [], _ => []
  | e :: rest, j =>
    let p := cscTXorGo ones b e e j 0
    p.1 :: cscTmulGo ones b rest p.2

/-- `Mul<&BlockMatrix> for &CscMatrixTranspose` from `src/linalg.rs`; the
`assert_eq!(m, b.len())` is modelled as `none` on failure. -/
def cscTranspose_mul (m : CscMatrix) (b : List ℕ) : Option (List ℕ) :=
  if m.num_rows = b.length then some (cscTmulGo m.ones b m.ends 0) else none

/-- XOR of the rows `b[r]` over a list of row indices `r`. -/
def xorFold (b : List ℕ) (L : List ℕ) (acc : ℕ) : ℕ :=
  L.foldl (fun a r => a ^^^ b.getD r 0) acc

/-- The row indices stored for column `i` of a CSC matrix:
`ones[end[i-1] .. end[i]]`. -/
def colOnes (m : CscMatrix) (i : ℕ) : List ℕ :=
  (m.ones.take (m.ends.getD i 0)).drop (if i = 0 then 0 else m.ends.getD (i - 1) 0)

theorem cscTXorGo_eq (ones b : List ℕ) (e : ℕ) (he : e ≤ ones.length) :
    ∀ fuel j acc, e - j ≤ fuel →
      cscTXorGo ones b e fuel j acc = (xorFold b ((ones.take e).drop j) acc, max j e) := by
  intro fuel
  induction fuel with
  | zero =>
    intro j acc hfuel
    have hj : e ≤ j := by omega
    rw [cscTXorGo]
    have hnil : (ones.take e).drop j = [] :=
      List.drop_eq_nil_of_le (by rw [List.length_take]; omega)
    rw [hnil]
    simp [xorFold, max_eq_left hj]
  | succ fuel ih =>
    intro j acc hfuel
    rw [cscTXorGo]
    by_cases hj : j < e
    · rw [if_pos hj, ih (j + 1) _ (by omega)]
      have hjlen : j < (ones.take e).length := by
        rw [List.length_take]
        omega
      have hdrop : (ones.take e).drop j = (ones.take e)[j] :: (ones.take e).drop (j + 1) :=
        List.drop_eq_getElem_cons hjlen
      have hget : (ones.take e)[j] = ones.getD j 0 := by
        rw [List.getElem_take]
        rw [List.getD_eq_getElem?_getD, List.getElem?_eq_getElem (by omega : j < ones.length)]
        rfl
      rw [hdrop, hget]
      have h1 : xorFold b (ones.getD j 0 :: (ones.take e).drop (j + 1)) acc
          = xorFold b ((ones.take e).drop (j + 1)) (acc ^^^ b.getD (ones.getD j 0) 0) := rfl
      rw [h1]
      have h2 : (j + 1) ⊔ e = j ⊔ e := by
        rw [max_eq_right (by omega : j + 1 ≤ e), max_eq_right (by omega : j ≤ e)]
      rw [h2]
    · rw [if_neg hj]
      have hnil : (ones.take e).drop j = [] :=
        List.drop_eq_nil_of_le (by rw [List.length_take]; omega)
      rw [hnil]
      simp [xorFold]
      omega

theorem cscTmulGo_getD (ones b : List ℕ) :
    ∀ (ends : List ℕ) (j0 : ℕ), List.Chain (· ≤ ·) j0 ends →
      (∀ e ∈ ends, e ≤ ones.length) →
      ∀ i < ends.length,
        (cscTmulGo ones b ends j0).getD i 0 =
          xorFold b ((ones.take (ends.getD i 0)).drop
            (if i = 0 then j0 else ends.getD (i - 1) 0)) 0 := by
  intro ends
  induction ends with
  | nil => intro j0 _ _ i hi; simp at hi
  | cons e rest ih =>
    intro j0 hchain hbound i hi
    rcases List.chain_cons.mp hchain with ⟨hje, hchain2⟩
    have hee : e ≤ ones.length := hbound e (List.mem_cons_self _ _)
    rw [cscTmulGo]
    rw [cscTXorGo_eq ones b e hee e j0 0 (by omega)]
    cases i with
    | zero =>
      simp only [List.getD_cons_zero, List.getD]
      rfl
    | succ k =>
      have hk : k < rest.length := by
        simp only [List.length_cons] at hi
        omega
      have hmax : max j0 e = e := max_eq_right hje
      simp only [List.getD_cons_succ]
      rw [hmax, ih e hchain2 (fun x hx => hbound x (List.mem_cons_of_mem _ hx)) k hk]
      cases k with
      | zero => simp
      | succ k2 => simp

theorem xorFold_testBit (b : List ℕ) :
    ∀ (L : List ℕ) (acc : ℕ) (k : ℕ),
      (xorFold b L acc).testBit k =
        xor (acc.testBit k) ((L.countP fun r => (b.getD r 0).testBit k) % 2 == 1) := by
  intro L
  induction L with
  | nil => intro acc k; simp [xorFold]
  | cons r L' ih =>
    intro acc k
    have hstep : xorFold b (r :: L') acc = xorFold b L' (acc ^^^ b.getD r 0) := rfl
    rw [hstep, ih, List.countP_cons, Nat.testBit_xor]
    by_cases hb : (b.getD r 0).testBit k
    · rw [hb, if_pos rfl]
      rcases Nat.mod_two_eq_zero_or_one (L'.countP fun r => (b.getD r 0).testBit k) with h | h
      · have h2 : (L'.countP (fun r => (b.getD r 0).testBit k) + 1) % 2 = 1 := by omega
        rw [h2, h]
        cases acc.testBit k <;> rfl
      · have h2 : (L'.countP (fun r => (b.getD r 0).testBit k) + 1) % 2 = 0 := by omega
        rw [h2, h]
        cases acc.testBit k <;> rfl
    · have hb2 : (b.getD r 0).testBit k = false := by
        simp only [Bool.not_eq_true] at hb
        exact hb
      rw [hb2, if_neg Bool.false_ne_true, Nat.add_zero, Bool.xor_false]

theorem cscTmulGo_length (ones b : List ℕ) :
    ∀ (ends : List ℕ) (j0 : ℕ), (cscTmulGo ones b ends j0).length = ends.length := by
  intro ends
  induction ends with
  | nil => intro j0; rfl
  | cons e rest ih =>
    intro j0
    rw [cscTmulGo]
    simp [ih]

/-- C6: under the CSC invariants (`end` nondecreasing, every stored row index
below `num_rows`, every `end` within `ones`, distinct indices per column) and
`B` with `num_rows` rows, `Mᵀ · B` succeeds; row `i` of the result is the XOR
of the rows `B[r]` over the ones `r` stored in column `i` of `M`, and bit `k`
of row `i` equals the GF(2) inner product of column `i` of `M` (= row `i` of
the mathematical transpose) with column `k` of `B`: the parity of the number
of rows `r < num_rows` with `M[r, i] = 1` and `B[r]` bit `k` set. -/
theorem cscTranspose_mul_eq_transpose_product (m : CscMatrix) (b : List ℕ)
    (hlen : m.num_rows = b.length)
    (hmono : List.Chain (· ≤ ·) 0 m.ends)
    (hbound : ∀ e ∈ m.ends, e ≤ m.ones.length)
    (hrows : ∀ r ∈ m.ones, r < m.num_rows)
    (hnodup : ∀ i < m.ends.length, (colOnes m i).Nodup) :
    ∃ res, cscTranspose_mul m b = some res ∧ res.length = m.ends.length ∧
      (∀ i < m.ends.length, res.getD i 0 = xorFold b (colOnes m i) 0) ∧
      (∀ i < m.ends.length, ∀ k : ℕ,
        (res.getD i 0).testBit k = decide (Odd (((Finset.range m.num_rows).filter
          fun r => r ∈ colOnes m i ∧ (b.getD r 0).testBit k).card))) := by
  refine ⟨cscTmulGo m.ones b m.ends 0, ?_, cscTmulGo_length m.ones b m.ends 0, ?_, ?_⟩
  · rw [cscTranspose_mul, if_pos hlen]
  · intro i hi
    exact cscTmulGo_getD m.ones b m.ends 0 hmono hbound i hi
  · intro i hi k
    rw [cscTmulGo_getD m.ones b m.ends 0 hmono hbound i hi]
    have hcol : (m.ones.take (m.ends.getD i 0)).drop
        (if i = 0 then 0 else m.ends.getD (i - 1) 0) = colOnes m i := rfl
    rw [hcol, xorFold_testBit]
    simp only [Nat.zero_testBit, Bool.false_xor]
    have hnd : (colOnes m i).Nodup := hnodup i hi
    have hsl : (colOnes m i).Sublist m.ones :=
      (List.drop_sublist _ _).trans (List.take_sublist _ _)
    have hsub : ∀ r ∈ colOnes m i, r < m.num_rows := fun r hr => hrows r (hsl.subset hr)
    set p : ℕ → Bool := fun r => (b.getD r 0).testBit k with hp
    have hcnt : (colOnes m i).countP p = ((colOnes m i).filter p).length :=
      List.countP_eq_length_filter _ _
    have hfin : ((colOnes m i).filter p).toFinset.card = ((colOnes m i).filter p).length :=
      List.toFinset_card_of_nodup (hnd.filter p)
    have hset : ((colOnes m i).filter p).toFinset =
        (Finset.range m.num_rows).filter (fun r => r ∈ colOnes m i ∧ (b.getD r 0).testBit k) := by
      ext r
      simp only [List.mem_toFinset, List.mem_filter, Finset.mem_filter, Finset.mem_range, hp]
      constructor
      · rintro ⟨h1, h2⟩
        exact ⟨hsub r h1, h1, h2⟩
      · rintro ⟨_, h1, h2⟩
        exact ⟨h1, h2⟩
    rw [hcnt, ← hfin, hset]
    by_cases hodd : Odd (((Finset.range m.num_rows).filter
        (fun r => r ∈ colOnes m i ∧ (b.getD r 0).testBit k)).card)
    · rw [decide_eq_true hodd, Nat.odd_iff.mp hodd]
      rfl
    · rw [decide_eq_false hodd, Nat.even_iff.mp (Nat.not_odd_iff_even.mp hodd)]
      rfl

/-- Witness for `cscTranspose_mul_eq_transpose_product` on the 3-row CSC matrix
with columns `{0, 2}` and `{1}` and `B = [5, 6, 7]`:
the product is `[5 xor 7, 6] = [2, 6]`. -/
theorem cscTranspose_mul_transpose_witness :
    cscTranspose_mul ⟨3, [2, 3], [0, 2, 1]⟩ [5, 6, 7] = some [2, 6] ∧
    (cscTranspose_mul ⟨3, [2, 3], [0, 2, 1]⟩ [5, 6, 7]).isSome = true := by
  constructor
  · decide
  · obtain ⟨res, hres, -, -, -⟩ := cscTranspose_mul_eq_transpose_product
      ⟨3, [2, 3], [0, 2, 1]⟩ [5, 6, 7] rfl
      (List.Chain.cons (by norm_num) (List.Chain.cons (by norm_num) List.Chain.nil))
      (by decide) (by decide) (by decide)
    rw [hres]
    rfl

/-! ## `mod_sqrt` (Tonelli–Shanks) from `src/nt.rs` / `src/mod_sqrt.rs`
(claim C5)

The non-residue search draws random `b` until `legendre(b, p) ≠ 1`; the
accepted draw is passed in as the parameter `bNR`.  All values stay below
`2^32`, so `u64` arithmetic never wraps and `ℕ` semantics are exact.  The
asserts of `mod_sqrt` are modelled as `none`.  The main loop halves `m`
until it is odd; `m = (p-1)/4 ≥ 1` on entry (`p ≡ 1 (mod 4)`), so recursion
on `m` terminates (the unreachable `m = 0` case is mapped to `0`). -/

/-- `legendre(a, p) = mod_exp(a, (p-1)/2, p)` from `src/nt.rs`. -/
def legendre (a p : ℕ) : ℕ := mod_exp a ((p - 1) / 2) p

/-- `mod_inverse(a, p) = mod_exp(a, p-2, p)` from `src/nt.rs`. -/
def mod_inverse (a p : ℕ) : ℕ := mod_exp a (p - 2) p

/-- The `loop { … }` of `mod_sqrt`, with state `(a, m, c, cinv, correction)`.
Fuel recursion on `m`: `m` halves whenever the loop continues. -/
def tsLoop (p : ℕ) : ℕ → ℕ → ℕ → ℕ → ℕ → ℕ
  | m, a, c, cinv, correction =>
    let a' := if mod_exp a m p ≠ 1 then (a * ((c * c) % p)) % p else a
    let correction' := if mod_exp a m p ≠ 1 then (correction * cinv) % p else correction
    if m % 2 = 1 then (mod_exp a' ((m + 1) / 2) p * correction') % p
    else if h : m = 0 then 0
    else tsLoop p (m / 2) a' ((c * c) % p) ((cinv * cinv) % p) correction'
  termination_by m _ _ _ _ => m
  decreasing_by exact Nat.div_lt_self (Nat.pos_of_ne_zero h) (by norm_num)

/-- `mod_sqrt(a, p)` from `src/nt.rs` / `src/mod_sqrt.rs` with the accepted
non-residue draw `bNR` made explicit; `none` models a failed assert
(`a ≤ u32::MAX`, `p ≤ u32::MAX`, `a = 1` when `p = 2`, `legendre(a,p) = 1`). -/
def mod_sqrt (a p bNR : ℕ) : Option ℕ :=
  if a ≥ 2 ^ 32 ∨ p ≥ 2 ^ 32 then none
  else if p = 2 then (if a = 1 then some 1 else none)
  else if legendre a p ≠ 1 then none
  else if p % 4 = 3 then some (mod_exp a ((p + 1) / 4) p)
  else some (tsLoop p ((p - 1) / 4) a bNR (mod_inverse bNR p) 1)

theorem mod_exp_lt (a b n : ℕ) (hb : 1 ≤ b) (hn : 1 ≤ n) : mod_exp a b n < n := by
  rw [mod_exp_eq a b n hb]
  exact Nat.mod_lt _ (by omega)

theorem mod_exp_zmod (a b n : ℕ) (hb : 1 ≤ b) :
    ((mod_exp a b n : ℕ) : ZMod n) = (a : ZMod n) ^ b := by
  rw [mod_exp_eq a b n hb, ZMod.natCast_mod, Nat.cast_pow]

theorem natCast_zmod_inj (p x y : ℕ) (hp : 0 < p) (hx : x < p) (hy : y < p)
    (h : (x : ZMod p) = (y : ZMod p)) : x = y := by
  haveI : NeZero p := ⟨by omega⟩
  have h2 := congrArg ZMod.val h
  rwa [ZMod.val_natCast, ZMod.val_natCast, Nat.mod_eq_of_lt hx, Nat.mod_eq_of_lt hy] at h2

theorem tsLoop_sq (p : ℕ) (hp : p.Prime) (hp2 : 2 < p) :
    ∀ m a c cinv corr : ℕ, 1 ≤ m →
      haveI : Fact p.Prime := ⟨hp⟩
      ((a : ZMod p) ^ (2 * m) = 1) →
      ((c : ZMod p) ^ (2 * m) = -1) →
      ((c : ZMod p) * (cinv : ZMod p) = 1) →
      (tsLoop p m a c cinv corr < p ∧
        ((tsLoop p m a c cinv corr : ℕ) : ZMod p) ^ 2 = (a : ZMod p) * (corr : ZMod p) ^ 2) := by
  haveI : Fact p.Prime := ⟨hp⟩
  intro m
  induction m using Nat.strong_induction_on with
  | _ m ih =>
    intro a c cinv corr hm hA hC hCinv
    rw [tsLoop]
    have hppos : 0 < p := by omega
    set t := mod_exp a m p with ht
    have htcast : ((t : ℕ) : ZMod p) = (a : ZMod p) ^ m := mod_exp_zmod a m p hm
    have htlt : t < p := mod_exp_lt a m p hm (by omega)
    have hAm : (a : ZMod p) ^ m * ((a : ZMod p) ^ m) = 1 := by
      rw [← pow_add]
      have h2 : m + m = 2 * m := by ring
      rw [h2, hA]
    have hAm2 : (a : ZMod p) ^ m = 1 ∨ (a : ZMod p) ^ m = -1 :=
      mul_self_eq_one_iff.mp hAm
    -- after the conditional update, a'^m = 1 and a' * corr'^2 = a * corr^2
    have hkey : ∀ a' corr' : ℕ,
        (a' : ZMod p) = (if t ≠ 1 then (a : ZMod p) * ((c : ZMod p)) ^ 2 else (a : ZMod p)) →
        (corr' : ZMod p) =
          (if t ≠ 1 then (corr : ZMod p) * (cinv : ZMod p) else (corr : ZMod p)) →
        ((a' : ZMod p) ^ m = 1 ∧
          (a' : ZMod p) * (corr' : ZMod p) ^ 2 = (a : ZMod p) * (corr : ZMod p) ^ 2) := by
      intro a' corr' ha' hcorr'
      by_cases htest : t ≠ 1
      · rw [if_pos htest] at ha' hcorr'
        have hAmneg : (a : ZMod p) ^ m = -1 := by
          rcases hAm2 with h1 | h1
          · exfalso
            apply htest
            apply natCast_zmod_inj p t 1 hppos htlt (by omega)
            rw [htcast, h1, Nat.cast_one]
          · exact h1
        have hCm : ((c : ZMod p) ^ 2) ^ m = -1 := by
          rw [← pow_mul, mul_comm 2 m, pow_mul]
          have h3 : ((c : ZMod p) ^ m) ^ 2 = (c : ZMod p) ^ (2 * m) := by
            rw [← pow_mul, mul_comm m 2]
          rw [h3, hC]
        constructor
        · rw [ha', mul_pow, hAmneg, hCm]
          ring
        · rw [ha', hcorr']
          have hexpand : (a : ZMod p) * (c : ZMod p) ^ 2 *
              ((corr : ZMod p) * (cinv : ZMod p)) ^ 2
              = (a : ZMod p) * (corr : ZMod p) ^ 2 * ((c : ZMod p) * (cinv : ZMod p)) ^ 2 := by
            ring
          rw [hexpand, hCinv]
          ring
      · rw [if_neg htest] at ha' hcorr'
        push_neg at htest
        have hAm1 : (a : ZMod p) ^ m = 1 := by
          rw [← htcast, htest, Nat.cast_one]
        exact ⟨ha' ▸ hAm1, by rw [ha', hcorr']⟩
    by_cases hodd : m % 2 = 1
    · rw [if_pos hodd]
      set a' := if t ≠ 1 then (a * ((c * c) % p)) % p else a with hadefn
      set corr' := if t ≠ 1 then (corr * cinv) % p else corr with hcorrdefn
      have ha'cast : (a' : ZMod p) =
          (if t ≠ 1 then (a : ZMod p) * ((c : ZMod p)) ^ 2 else (a : ZMod p)) := by
        rw [hadefn]
        by_cases htest : t ≠ 1
        · rw [if_pos htest, if_pos htest]
          push_cast [ZMod.natCast_mod]
          ring
        · rw [if_neg htest, if_neg htest]
      have hcorr'cast : (corr' : ZMod p) =
          (if t ≠ 1 then (corr : ZMod p) * (cinv : ZMod p) else (corr : ZMod p)) := by
        rw [hcorrdefn]
        by_cases htest : t ≠ 1
        · rw [if_pos htest, if_pos htest]
          push_cast [ZMod.natCast_mod]
          ring
        · rw [if_neg htest, if_neg htest]
      obtain ⟨hA'm, hinv⟩ := hkey a' corr' ha'cast hcorr'cast
      constructor
      · exact Nat.mod_lt _ (by omega)
      · have hcast2 : (((mod_exp a' ((m + 1) / 2) p * corr') % p : ℕ) : ZMod p)
            = (a' : ZMod p) ^ ((m + 1) / 2) * (corr' : ZMod p) := by
          rw [ZMod.natCast_mod, Nat.cast_mul, mod_exp_zmod a' ((m + 1) / 2) p (by omega)]
        rw [hcast2]
        have hexp : ((a' : ZMod p) ^ ((m + 1) / 2) * (corr' : ZMod p)) ^ 2
            = (a' : ZMod p) ^ (2 * ((m + 1) / 2)) * (corr' : ZMod p) ^ 2 := by
          rw [mul_pow, ← pow_mul, mul_comm ((m + 1) / 2) 2]
        rw [hexp]
        have h21 : 2 * ((m + 1) / 2) = m + 1 := by omega
        rw [h21, pow_succ, hA'm, one_mul]
        exact hinv
    · rw [if_neg hodd, dif_neg (by omega : ¬ m = 0)]
      set a' := if t ≠ 1 then (a * ((c * c) % p)) % p else a with hadefn
      set corr' := if t ≠ 1 then (corr * cinv) % p else corr with hcorrdefn
      have ha'cast : (a' : ZMod p) =
          (if t ≠ 1 then (a : ZMod p) * ((c : ZMod p)) ^ 2 else (a : ZMod p)) := by
        rw [hadefn]
        by_cases htest : t ≠ 1
        · rw [if_pos htest, if_pos htest]
          push_cast [ZMod.natCast_mod]
          ring
        · rw [if_neg htest, if_neg htest]
      have hcorr'cast : (corr' : ZMod p) =
          (if t ≠ 1 then (corr : ZMod p) * (cinv : ZMod p) else (corr : ZMod p)) := by
        rw [hcorrdefn]
        by_cases htest : t ≠ 1
        · rw [if_pos htest, if_pos htest]
          push_cast [ZMod.natCast_mod]
          ring
        · rw [if_neg htest, if_neg htest]
      obtain ⟨hA'm, hinv⟩ := hkey a' corr' ha'cast hcorr'cast
      have hm2 : 1 ≤ m / 2 := by omega
      have hA' : ((a' : ℕ) : ZMod p) ^ (2 * (m / 2)) = 1 := by
        have h4 : 2 * (m / 2) = m := by omega
        rw [h4]
        exact hA'm
      have hC' : (((c * c) % p : ℕ) : ZMod p) ^ (2 * (m / 2)) = -1 := by
        have hcast3 : (((c * c) % p : ℕ) : ZMod p) = (c : ZMod p) * (c : ZMod p) := by
          push_cast [ZMod.natCast_mod]
          ring
        rw [hcast3]
        have h4 : ((c : ZMod p) * (c : ZMod p)) ^ (2 * (m / 2)) = (c : ZMod p) ^ (2 * m) := by
          rw [← sq, ← pow_mul]
          congr 1
          omega
        rw [h4, hC]
      have hCinv' : (((c * c) % p : ℕ) : ZMod p) * (((cinv * cinv) % p : ℕ) : ZMod p) = 1 := by
        push_cast [ZMod.natCast_mod]
        calc (c : ZMod p) * (c : ZMod p) * ((cinv : ZMod p) * (cinv : ZMod p))
            = ((c : ZMod p) * (cinv : ZMod p)) * ((c : ZMod p) * (cinv : ZMod p)) := by ring
          _ = 1 := by rw [hCinv, mul_one]
      obtain ⟨hlt2, hsq2⟩ := ih (m / 2) (by omega) a' ((c * c) % p) ((cinv * cinv) % p) corr'
        hm2 hA' hC' hCinv'
      exact ⟨hlt2, by rw [hsq2, hinv]⟩

/-- C5: for every odd prime `p < 2^32` and `a ∈ [1, p)` with
`legendre(a, p) = 1`, and every draw `bNR ∈ [2, p)` accepted by the
non-residue search (`legendre(bNR, p) ≠ 1`), `mod_sqrt(a, p)` succeeds and
returns `x` with `x·x ≡ a (mod p)`. -/
theorem mod_sqrt_correct (a p bNR : ℕ) (hp : p.Prime) (hodd : p % 2 = 1)
    (hplt : p < 2 ^ 32) (ha1 : 1 ≤ a) (hap : a < p)
    (hleg : legendre a p = 1)
    (hbr : 2 ≤ bNR) (hbp : bNR < p) (hbNR : legendre bNR p ≠ 1) :
    ∃ x, mod_sqrt a p bNR = some x ∧ (x * x) % p = a := by
  haveI : Fact p.Prime := ⟨hp⟩
  have hp3 : 3 ≤ p := by
    have := hp.two_le
    omega
  have hppos : 0 < p := by omega
  have hhalf : 1 ≤ (p - 1) / 2 := by omega
  have hA : (a : ZMod p) ^ ((p - 1) / 2) = 1 := by
    have h1 : ((legendre a p : ℕ) : ZMod p) = (a : ZMod p) ^ ((p - 1) / 2) :=
      mod_exp_zmod a ((p - 1) / 2) p hhalf
    rw [hleg] at h1
    rw [← h1, Nat.cast_one]
  -- conversion from a ZMod square identity to the Nat-level claim
  have hconv : ∀ x : ℕ, x < p → ((x : ZMod p) ^ 2 = (a : ZMod p)) → (x * x) % p = a := by
    intro x hxlt hxsq
    apply natCast_zmod_inj p ((x * x) % p) a hppos (Nat.mod_lt _ hppos) hap
    rw [ZMod.natCast_mod, Nat.cast_mul, ← sq]
    exact hxsq
  rw [mod_sqrt, if_neg (by omega), if_neg (by omega : ¬ p = 2), if_neg (by simp [hleg])]
  by_cases h43 : p % 4 = 3
  · rw [if_pos h43]
    refine ⟨_, rfl, ?_⟩
    have hq1 : 1 ≤ (p + 1) / 4 := by omega
    apply hconv _ (mod_exp_lt a ((p + 1) / 4) p hq1 (by omega))
    rw [mod_exp_zmod a ((p + 1) / 4) p hq1, ← pow_mul]
    have he : (p + 1) / 4 * 2 = (p - 1) / 2 + 1 := by omega
    rw [he, pow_succ, hA, one_mul]
  · rw [if_neg h43]
    have h41 : p % 4 = 1 := by omega
    have hm1 : 1 ≤ (p - 1) / 4 := by omega
    have hB0 : (bNR : ZMod p) ≠ 0 := by
      intro h0
      have hdvd : p ∣ bNR := (ZMod.natCast_zmod_eq_zero_iff_dvd bNR p).mp h0
      have := Nat.le_of_dvd (by omega) hdvd
      omega
    have hBhalf : (bNR : ZMod p) ^ ((p - 1) / 2) = -1 := by
      have hsq : (bNR : ZMod p) ^ ((p - 1) / 2) * ((bNR : ZMod p) ^ ((p - 1) / 2)) = 1 := by
        rw [← pow_add]
        have he2 : (p - 1) / 2 + (p - 1) / 2 = p - 1 := by omega
        rw [he2]
        exact ZMod.pow_card_sub_one_eq_one hB0
      rcases mul_self_eq_one_iff.mp hsq with h1 | h1
      · exfalso
        apply hbNR
        apply natCast_zmod_inj p (legendre bNR p) 1 hppos
          (mod_exp_lt bNR ((p - 1) / 2) p hhalf (by omega)) (by omega)
        rw [legendre, mod_exp_zmod bNR ((p - 1) / 2) p hhalf, h1, Nat.cast_one]
      · exact h1
    have hAinv : (a : ZMod p) ^ (2 * ((p - 1) / 4)) = 1 := by
      have he3 : 2 * ((p - 1) / 4) = (p - 1) / 2 := by omega
      rw [he3]
      exact hA
    have hCinvar : (bNR : ZMod p) ^ (2 * ((p - 1) / 4)) = -1 := by
      have he3 : 2 * ((p - 1) / 4) = (p - 1) / 2 := by omega
      rw [he3]
      exact hBhalf
    have hBinv : (bNR : ZMod p) * ((mod_inverse bNR p : ℕ) : ZMod p) = 1 := by
      rw [mod_inverse, mod_exp_zmod bNR (p - 2) p (by omega), ← pow_succ']
      have he4 : p - 2 + 1 = p - 1 := by omega
      rw [he4]
      exact ZMod.pow_card_sub_one_eq_one hB0
    obtain ⟨hlt, hsq⟩ := tsLoop_sq p hp (by omega) ((p - 1) / 4) a bNR (mod_inverse bNR p) 1
      hm1 hAinv hCinvar hBinv
    refine ⟨_, rfl, ?_⟩
    apply hconv _ hlt
    rw [hsq, Nat.cast_one, one_pow, mul_one]

/-- Witness for `mod_sqrt_correct` at `p = 13`, `a = 4`, non-residue draw 2:
the `p ≡ 1 (mod 4)` Tonelli–Shanks loop runs and the returned root squares
back to 4. -/
theorem mod_sqrt_correct_witness :
    ∃ x, mod_sqrt 4 13 2 = some x ∧ (x * x) % 13 = 4 :=
  mod_sqrt_correct 4 13 2 (by norm_num) (by norm_num) (by norm_num) (by norm_num)
    (by norm_num) (by decide) (by norm_num) (by norm_num) (by decide)

/-! ## Relation assembly in `factorize` from `src/nfs.rs` (claim C1)

The body of the candidate loop (the trial-division block guarded by the
sieve thresholds) is embedded as `relationStep`: given the three bases, `m`,
`f` and a candidate `(a, b)`, it returns `some ones_pos` exactly when the
code appends the relation together with its matrix column, and `none` when
the candidate is skipped (gcd/zero guard) or not smooth.  rug's
`remove_factor` removes all powers of a factor and reports the exponent;
on a negative `Integer` it keeps the sign.  `nt::gcd` and `MpPolynomial`
are not under `src/`; `gcd` is the bignum facade's gcd (`Nat.gcd`), and the
polynomial enters only through `norm` (see above). -/

/-- rug `remove_factor` on nonnegative values: `(exponent, n / p^exponent)`.
Fuel recursion; `fuel = n` suffices since `n` strictly shrinks by division.
For `n = 0` no factor is removed and the value stays 0. -/
def removeFactorGo (p : ℕ) : ℕ → ℕ → ℕ × ℕ
  | 0, n => (0, n)
  | fuel + 1, n =>
    if 2 ≤ p ∧ p ∣ n ∧ n ≠ 0 then
      let r := removeFactorGo p fuel (n / p)
      (r.1 + 1, r.2)
    else (0, n)

/-- rug `remove_factor` on a nonnegative `Integer`. -/
def removeFactor (p n : ℕ) : ℕ × ℕ := removeFactorGo p n n

/-- rug `remove_factor` on a signed `Integer`: the exponent comes from the
absolute value and the sign is kept on the cofactor. -/
def removeFactorInt (p : ℕ) (z : ℤ) : ℕ × ℤ :=
  let r := removeFactor p z.natAbs
  (r.1, z.sign * (r.2 : ℤ))

theorem removeFactorGo_spec (p : ℕ) (hp : p.Prime) :
    ∀ fuel n, n ≤ fuel → n ≠ 0 →
      removeFactorGo p fuel n = (n.factorization p, n / p ^ n.factorization p) := by
  intro fuel
  induction fuel with
  | zero => intro n h1 h2; omega
  | succ fuel ih =>
    intro n h1 h2
    rw [removeFactorGo]
    by_cases hdvd : p ∣ n
    · rw [if_pos ⟨hp.two_le, hdvd, h2⟩]
      have hp2 : 2 ≤ p := hp.two_le
      have hnp : n / p ≠ 0 := by
        have := Nat.le_of_dvd (by omega) hdvd
        have := Nat.div_pos this (by omega)
        omega
      have hlt : n / p < n := Nat.div_lt_self (by omega) (by omega)
      rw [ih (n / p) (by omega) hnp]
      have hfact : (n / p).factorization p = n.factorization p - 1 := by
        rw [Nat.factorization_div hdvd]
        simp [hp.factorization]
      have hpos : 1 ≤ n.factorization p := hp.factorization_pos_of_dvd h2 hdvd
      have hgoal1 : (n / p).factorization p + 1 = n.factorization p := by
        rw [hfact]
        omega
      have hgoal2 : n / p / p ^ ((n / p).factorization p) = n / p ^ n.factorization p := by
        rw [hfact]
        have he : n.factorization p = (n.factorization p - 1) + 1 := by omega
        conv_rhs => rw [he]
        rw [pow_succ', Nat.div_div_eq_div_mul]
      show ((n / p).factorization p + 1, n / p / p ^ (n / p).factorization p)
          = (n.factorization p, n / p ^ n.factorization p)
      rw [Prod.mk.injEq]
      exact ⟨hgoal1, hgoal2⟩
    · rw [if_neg (by tauto)]
      rw [Nat.factorization_eq_zero_of_not_dvd hdvd]
      simp

theorem removeFactor_spec (p n : ℕ) (hp : p.Prime) (hn : n ≠ 0) :
    removeFactor p n = (n.factorization p, n / p ^ n.factorization p) :=
  removeFactorGo_spec p hp n n le_rfl hn

theorem removeFactor_mul (p n : ℕ) (hp : p.Prime) (hn : n ≠ 0) :
    n = p ^ n.factorization p * (removeFactor p n).2 ∧ (removeFactor p n).2 ≠ 0 ∧
      ¬ p ∣ (removeFactor p n).2 ∧
      (∀ q : ℕ, q.Prime → q ≠ p → (removeFactor p n).2.factorization q = n.factorization q) ∧
      (removeFactor p n).2.factorization p = 0 := by
  rw [removeFactor_spec p n hp hn]
  have hdvd : p ^ n.factorization p ∣ n := Nat.ord_proj_dvd n p
  have h1 : p ^ n.factorization p * (n / p ^ n.factorization p) = n :=
    Nat.mul_div_cancel' hdvd
  have h2 : n / p ^ n.factorization p ≠ 0 := by
    intro h0
    rw [h0, Nat.mul_zero] at h1
    exact hn h1.symm
  have h3 : ¬ p ∣ (n / p ^ n.factorization p) := Nat.not_dvd_ord_compl hp hn
  refine ⟨h1.symm, h2, h3, ?_, Nat.factorization_eq_zero_of_not_dvd h3⟩
  intro q hq hqp
  have h4 := Nat.factorization_ord_compl n p
  rw [h4]
  simp [Finsupp.erase_ne hqp]

/-- The rational trial-division loop: for each base entry `(p, _)` in order,
remove all factors `p` and record index `startIdx + i` when the removed
exponent is odd; returns `(recorded indices, residual)`. -/
def divideOut (base : List (ℕ × ℕ)) (startIdx : ℕ) (n : ℕ) : List ℕ × ℕ :=
  match base with
  | [] => ([], n)
  | (p, _) :: rest =>
    let r := removeFactor p n
    let q := divideOut rest (startIdx + 1) r.2
    ((if r.1 % 2 = 1 then [startIdx] else []) ++ q.1, q.2)

theorem divideOut_mem_range (base : List (ℕ × ℕ)) :
    ∀ startIdx n x, x ∈ (divideOut base startIdx n).1 →
      startIdx ≤ x ∧ x < startIdx + base.length := by
  induction base with
  | nil => intro s n x hx; simp [divideOut] at hx
  | cons pr rest ih =>
    intro s n x hx
    obtain ⟨p, u⟩ := pr
    rw [divideOut] at hx
    simp only [List.mem_append] at hx
    rcases hx with hx | hx
    · by_cases hodd : (removeFactor p n).1 % 2 = 1
      · rw [if_pos hodd] at hx
        simp only [List.mem_singleton] at hx
        subst hx
        simp only [List.length_cons]
        omega
      · rw [if_neg hodd] at hx
        simp at hx
    · have := ih (s + 1) (removeFactor p n).2 x hx
      simp only [List.length_cons]
      omega

theorem divideOut_cons (p u : ℕ) (rest : List (ℕ × ℕ)) (s n : ℕ) :
    divideOut ((p, u) :: rest) s n =
      ((if (removeFactor p n).1 % 2 = 1 then [s] else []) ++
        (divideOut rest (s + 1) (removeFactor p n).2).1,
        (divideOut rest (s + 1) (removeFactor p n).2).2) :=
  rfl

theorem divideOut_spec (base : List (ℕ × ℕ)) :
    ∀ startIdx n, n ≠ 0 → (∀ pr ∈ base, (pr.1 : ℕ).Prime) →
      (base.map Prod.fst).Nodup →
      (n = (base.map fun pr => pr.1 ^ n.factorization pr.1).prod * (divideOut base startIdx n).2 ∧
        (divideOut base startIdx n).2 ≠ 0 ∧
        (∀ x, x ∈ (divideOut base startIdx n).1 ↔
          ∃ i : Fin base.length, x = startIdx + i.1 ∧
            Odd (n.factorization (base.get i).1))) := by
  induction base with
  | nil =>
    intro s n hn _ _
    refine ⟨by simp [divideOut], by simpa [divideOut] using hn, ?_⟩
    intro x
    constructor
    · intro hx
      simp [divideOut] at hx
    · rintro ⟨i, -⟩
      exact i.elim0
  | cons pr rest ih =>
    intro s n hn hprime hdist
    obtain ⟨p, u⟩ := pr
    have hp : p.Prime := hprime (p, u) (List.mem_cons_self _ _)
    have hrest_prime : ∀ pr ∈ rest, (pr.1 : ℕ).Prime :=
      fun pr hpr => hprime pr (List.mem_cons_of_mem _ hpr)
    have hrest_dist : (rest.map Prod.fst).Nodup := (List.nodup_cons.mp hdist).2
    have hp_not_rest : p ∉ rest.map Prod.fst := (List.nodup_cons.mp hdist).1
    obtain ⟨hmul, hne, hnd, hpres, hzero⟩ := removeFactor_mul p n hp hn
    set n' := (removeFactor p n).2 with hn'
    obtain ⟨ih1, ih2, ih3⟩ := ih (s + 1) n' hne hrest_prime hrest_dist
    have hfact_pres : ∀ pr ∈ rest, n'.factorization pr.1 = n.factorization pr.1 := by
      intro pr hpr
      apply hpres pr.1 (hrest_prime pr hpr)
      intro hcontra
      exact hp_not_rest (hcontra ▸ List.mem_map_of_mem Prod.fst hpr)
    rw [divideOut_cons]
    have hrw : (rest.map fun pr => pr.1 ^ n.factorization pr.1).prod
        = (rest.map fun pr => pr.1 ^ n'.factorization pr.1).prod := by
      have : (rest.map fun pr => pr.1 ^ n.factorization pr.1)
          = (rest.map fun pr => pr.1 ^ n'.factorization pr.1) := by
        apply List.map_congr_left
        intro pr hpr
        rw [hfact_pres pr hpr]
      rw [this]
    refine ⟨?_, ih2, ?_⟩
    · simp only [List.map_cons, List.prod_cons]
      rw [hrw, mul_assoc, ← ih1]
      exact hmul
    · intro x
      simp only [List.mem_append]
      constructor
      · intro hx
        rcases hx with hx | hx
        · by_cases hodd : (removeFactor p n).1 % 2 = 1
          · rw [if_pos hodd] at hx
            simp only [List.mem_singleton] at hx
            subst hx
            refine ⟨⟨0, by simp⟩, by simp, ?_⟩
            have he : (removeFactor p n).1 = n.factorization p := by
              rw [removeFactor_spec p n hp hn]
            show Odd (n.factorization p)
            rw [← he]
            exact Nat.odd_iff.mpr hodd
          · rw [if_neg hodd] at hx
            simp at hx
        · obtain ⟨i, hxi, hoi⟩ := (ih3 x).mp hx
          refine ⟨⟨i.1 + 1, by simp⟩, (by show x = s + (i.1 + 1); omega), ?_⟩
          have hget : ((p, u) :: rest).get ⟨i.1 + 1, by simp⟩ = rest.get i := by
            simp [List.get_cons_succ]
          rw [hget]
          rw [← hfact_pres (rest.get i) (rest.get_mem _ _)]
          exact hoi
      · rintro ⟨i, hxi, hoi⟩
        rcases i with ⟨iv, hiv⟩
        cases iv with
        | zero =>
          left
          have hget : ((p, u) :: rest).get ⟨0, hiv⟩ = (p, u) := rfl
          rw [hget] at hoi
          have he : (removeFactor p n).1 = n.factorization p := by
            rw [removeFactor_spec p n hp hn]
          have hodd : (removeFactor p n).1 % 2 = 1 := by
            rw [he]
            exact Nat.odd_iff.mp hoi
          rw [if_pos hodd]
          simp only [List.mem_singleton]
          have h0 : x = s + 0 := hxi
          omega
        | succ j =>
          right
          apply (ih3 x).mpr
          have hj : j < rest.length := by
            simp only [List.length_cons] at hiv
            omega
          have h1 : x = s + (j + 1) := hxi
          refine ⟨⟨j, hj⟩, (by show x = s + 1 + j; omega), ?_⟩
          have hget : ((p, u) :: rest).get ⟨j + 1, hiv⟩ = rest.get ⟨j, hj⟩ := by
            simp [List.get_cons_succ]
          rw [hget] at hoi
          rw [hfact_pres (rest.get ⟨j, hj⟩) (rest.get_mem _ _)]
          exact hoi

/-- The divisibility guard of the algebraic trial-division loop:
`(a + b·r) % p == 0` in `i64` arithmetic. -/
def algGuard (a : ℤ) (b : ℕ) (pr : ℕ × ℕ) : Prop :=
  (a + (b : ℤ) * (pr.2 : ℤ)).tmod (pr.1 : ℤ) = 0

instance (a : ℤ) (b : ℕ) (pr : ℕ × ℕ) : Decidable (algGuard a b pr) := by
  unfold algGuard
  infer_instance

/-- The algebraic trial-division loop: for each base entry `(p, r)` in order,
if `p` divides `a + b·r`, remove all factors `p` from the running norm and
record the index when the removed exponent is odd. -/
def divideOutAlg (a : ℤ) (b : ℕ) : List (ℕ × ℕ) → ℕ → ℤ → List ℕ × ℤ
  | [], _, z => ([], z)
  | pr :: rest, startIdx, z =>
    if algGuard a b pr then
      let q := removeFactorInt pr.1 z
      let w := divideOutAlg a b rest (startIdx + 1) q.2
      ((if q.1 % 2 = 1 then [startIdx] else []) ++ w.1, w.2)
    else divideOutAlg a b rest (startIdx + 1) z

/-- The quadratic-character loop: record index `startIdx + i` when
`legendre(((a + b·s) % p + p) % p, p) = p - 1`. -/
def quadCharBits (a : ℤ) (b : ℕ) : List (ℕ × ℕ) → ℕ → List ℕ
  | [], _ => []
  | pr :: rest, startIdx =>
    (if legendre (((a + (b : ℤ) * (pr.2 : ℤ)).tmod (pr.1 : ℤ) + (pr.1 : ℤ)).tmod
        (pr.1 : ℤ)).toNat pr.1 = pr.1 - 1
      then [startIdx] else []) ++ quadCharBits a b rest (startIdx + 1)

theorem removeFactorInt_spec (p : ℕ) (z : ℤ) (hp : p.Prime) (hz : z ≠ 0) :
    z = (p : ℤ) ^ (z.natAbs.factorization p) * (removeFactorInt p z).2 ∧
    (removeFactorInt p z).2 ≠ 0 ∧
    (removeFactorInt p z).1 = z.natAbs.factorization p ∧
    (∀ q : ℕ, q.Prime → q ≠ p →
      (removeFactorInt p z).2.natAbs.factorization q = z.natAbs.factorization q) ∧
    (removeFactorInt p z).2.natAbs.factorization p = 0 := by
  have hna : z.natAbs ≠ 0 := Int.natAbs_ne_zero.mpr hz
  obtain ⟨hmul, hne, hnd, hpres, hzero⟩ := removeFactor_mul p z.natAbs hp hna
  set c := (removeFactor p z.natAbs).2 with hc
  have hr2 : (removeFactorInt p z).2 = z.sign * (c : ℤ) := rfl
  have hr1 : (removeFactorInt p z).1 = (removeFactor p z.natAbs).1 := rfl
  have hsign : z.sign = 1 ∨ z.sign = -1 := by
    rcases Int.lt_or_lt_of_ne hz with h | h
    · right
      exact Int.sign_eq_neg_one_of_neg h
    · left
      exact Int.sign_eq_one_of_pos h
  have habs : (z.sign * (c : ℤ)).natAbs = c := by
    rw [Int.natAbs_mul]
    rcases hsign with h | h <;> rw [h] <;> simp
  refine ⟨?_, ?_, ?_, ?_, ?_⟩
  · rw [hr2]
    have h1 : z = z.sign * (z.natAbs : ℤ) := (Int.sign_mul_natAbs z).symm
    calc z = z.sign * (z.natAbs : ℤ) := h1
      _ = z.sign * ((p ^ z.natAbs.factorization p * c : ℕ) : ℤ) := by rw [← hmul]
      _ = (p : ℤ) ^ (z.natAbs.factorization p) * (z.sign * (c : ℤ)) := by
          push_cast
          ring
  · rw [hr2]
    intro h0
    rcases mul_eq_zero.mp h0 with h1 | h1
    · rcases hsign with h | h <;> rw [h] at h1 <;> simp at h1
    · exact hne (by exact_mod_cast h1)
  · rw [hr1, removeFactor_spec p z.natAbs hp hna]
  · intro q hq hqp
    rw [hr2, habs]
    exact hpres q hq hqp
  · rw [hr2, habs]
    exact hzero

theorem divideOutAlg_mem_range (a : ℤ) (b : ℕ) :
    ∀ (base : List (ℕ × ℕ)) (startIdx : ℕ) (z : ℤ) (x : ℕ),
      x ∈ (divideOutAlg a b base startIdx z).1 →
      startIdx ≤ x ∧ x < startIdx + base.length := by
  intro base
  induction base with
  | nil => intro s z x hx; simp [divideOutAlg] at hx
  | cons pr rest ih =>
    intro s z x hx
    rw [divideOutAlg] at hx
    by_cases hg : algGuard a b pr
    · rw [if_pos hg] at hx
      simp only [List.mem_append] at hx
      rcases hx with hx | hx
      · by_cases hodd : (removeFactorInt pr.1 z).1 % 2 = 1
        · rw [if_pos hodd] at hx
          simp only [List.mem_singleton] at hx
          subst hx
          simp only [List.length_cons]
          omega
        · rw [if_neg hodd] at hx
          simp at hx
      · have := ih (s + 1) _ x hx
        simp only [List.length_cons]
        omega
    · rw [if_neg hg] at hx
      have := ih (s + 1) z x hx
      simp only [List.length_cons]
      omega

theorem divideOutAlg_spec (a : ℤ) (b : ℕ) :
    ∀ (base : List (ℕ × ℕ)) (startIdx : ℕ) (z : ℤ), z ≠ 0 →
      (∀ pr ∈ base, (pr.1 : ℕ).Prime) →
      List.Pairwise (fun x y => x.1 = y.1 → ¬(algGuard a b x ∧ algGuard a b y)) base →
      (z = (base.map fun pr => if algGuard a b pr
              then (pr.1 : ℤ) ^ (z.natAbs.factorization pr.1) else 1).prod
            * (divideOutAlg a b base startIdx z).2 ∧
        (divideOutAlg a b base startIdx z).2 ≠ 0 ∧
        (∀ x, x ∈ (divideOutAlg a b base startIdx z).1 ↔
          ∃ i : Fin base.length, x = startIdx + i.1 ∧ algGuard a b (base.get i) ∧
            Odd (z.natAbs.factorization (base.get i).1))) := by
  intro base
  induction base with
  | nil =>
    intro s z hz _ _
    refine ⟨by simp [divideOutAlg], by simpa [divideOutAlg] using hz, ?_⟩
    intro x
    constructor
    · intro hx
      simp [divideOutAlg] at hx
    · rintro ⟨i, -⟩
      exact i.elim0
  | cons pr rest ih =>
    intro s z hz hprime hpair
    have hp : pr.1.Prime := hprime pr (List.mem_cons_self _ _)
    have hrest_prime : ∀ q ∈ rest, (q.1 : ℕ).Prime :=
      fun q hq => hprime q (List.mem_cons_of_mem _ hq)
    obtain ⟨hhead, hrest_pair⟩ := List.pairwise_cons.mp hpair
    rw [divideOutAlg]
    by_cases hg : algGuard a b pr
    · rw [if_pos hg]
      obtain ⟨hmul, hne, he, hpres, hzero⟩ := removeFactorInt_spec pr.1 z hp hz
      set z' := (removeFactorInt pr.1 z).2 with hz'
      obtain ⟨ih1, ih2, ih3⟩ := ih (s + 1) z' hne hrest_prime hrest_pair
      have hfact_pres : ∀ q ∈ rest, algGuard a b q →
          z'.natAbs.factorization q.1 = z.natAbs.factorization q.1 := by
        intro q hq hgq
        apply hpres q.1 (hrest_prime q hq)
        intro hcontra
        exact hhead q hq hcontra.symm ⟨hg, hgq⟩
      have hrw : (rest.map fun q => if algGuard a b q
              then (q.1 : ℤ) ^ (z.natAbs.factorization q.1) else 1)
          = (rest.map fun q => if algGuard a b q
              then (q.1 : ℤ) ^ (z'.natAbs.factorization q.1) else 1) := by
        apply List.map_congr_left
        intro q hq
        by_cases hgq : algGuard a b q
        · rw [if_pos hgq, if_pos hgq, hfact_pres q hq hgq]
        · rw [if_neg hgq, if_neg hgq]
      refine ⟨?_, ih2, ?_⟩
      · simp only [List.map_cons, List.prod_cons, if_pos hg]
        rw [hrw, mul_assoc, ← ih1]
        exact hmul
      · intro x
        simp only [List.mem_append]
        constructor
        · intro hx
          rcases hx with hx | hx
          · by_cases hodd : (removeFactorInt pr.1 z).1 % 2 = 1
            · rw [if_pos hodd] at hx
              simp only [List.mem_singleton] at hx
              subst hx
              refine ⟨⟨0, by simp⟩, rfl, hg, ?_⟩
              show Odd (z.natAbs.factorization pr.1)
              rw [← he]
              exact Nat.odd_iff.mpr hodd
            · rw [if_neg hodd] at hx
              simp at hx
          · obtain ⟨i, hxi, hgi, hoi⟩ := (ih3 x).mp hx
            refine ⟨⟨i.1 + 1, by simp⟩, (by show x = s + (i.1 + 1); omega), hgi, ?_⟩
            show Odd (z.natAbs.factorization (rest.get i).1)
            rw [← hfact_pres (rest.get i) (rest.get_mem _ _) hgi]
            exact hoi
        · rintro ⟨⟨iv, hiv⟩, hxi, hgi, hoi⟩
          cases iv with
          | zero =>
            left
            have hodd : (removeFactorInt pr.1 z).1 % 2 = 1 := by
              rw [he]
              exact Nat.odd_iff.mp hoi
            rw [if_pos hodd]
            simp only [List.mem_singleton]
            have h0 : x = s + 0 := hxi
            omega
          | succ j =>
            right
            apply (ih3 x).mpr
            have hj : j < rest.length := by
              simp only [List.length_cons] at hiv
              omega
            have h1 : x = s + (j + 1) := hxi
            refine ⟨⟨j, hj⟩, (by show x = s + 1 + j; omega), hgi, ?_⟩
            show Odd (z'.natAbs.factorization (rest.get ⟨j, hj⟩).1)
            by_cases hgq : algGuard a b (rest.get ⟨j, hj⟩)
            · rw [hfact_pres (rest.get ⟨j, hj⟩) (rest.get_mem _ _) hgq]
              exact hoi
            · exact absurd hgi hgq
    · rw [if_neg hg]
      obtain ⟨ih1, ih2, ih3⟩ := ih (s + 1) z hz hrest_prime hrest_pair
      refine ⟨?_, ih2, ?_⟩
      · simp only [List.map_cons, List.prod_cons, if_neg hg, one_mul]
        exact ih1
      · intro x
        constructor
        · intro hx
          obtain ⟨i, hxi, hgi, hoi⟩ := (ih3 x).mp hx
          exact ⟨⟨i.1 + 1, by simp⟩, (by show x = s + (i.1 + 1); omega), hgi, hoi⟩
        · rintro ⟨⟨iv, hiv⟩, hxi, hgi, hoi⟩
          cases iv with
          | zero => exact absurd hgi hg
          | succ j =>
            apply (ih3 x).mpr
            have hj : j < rest.length := by
              simp only [List.length_cons] at hiv
              omega
            have h1 : x = s + (j + 1) := hxi
            exact ⟨⟨j, hj⟩, (by show x = s + 1 + j; omega), hgi, hoi⟩

theorem quadCharBits_mem (a : ℤ) (b : ℕ) :
    ∀ (base : List (ℕ × ℕ)) (startIdx : ℕ) (x : ℕ),
      x ∈ quadCharBits a b base startIdx ↔
        ∃ i : Fin base.length, x = startIdx + i.1 ∧
          legendre (((a + (b : ℤ) * ((base.get i).2 : ℤ)).tmod ((base.get i).1 : ℤ)
            + ((base.get i).1 : ℤ)).tmod ((base.get i).1 : ℤ)).toNat (base.get i).1
            = (base.get i).1 - 1 := by
  intro base
  induction base with
  | nil =>
    intro s x
    constructor
    · intro hx
      simp [quadCharBits] at hx
    · rintro ⟨i, -⟩
      exact i.elim0
  | cons pr rest ih =>
    intro s x
    rw [quadCharBits]
    simp only [List.mem_append]
    constructor
    · intro hx
      rcases hx with hx | hx
      · by_cases hleg : legendre (((a + (b : ℤ) * (pr.2 : ℤ)).tmod (pr.1 : ℤ)
            + (pr.1 : ℤ)).tmod (pr.1 : ℤ)).toNat pr.1 = pr.1 - 1
        · rw [if_pos hleg] at hx
          simp only [List.mem_singleton] at hx
          subst hx
          exact ⟨⟨0, by simp⟩, rfl, hleg⟩
        · rw [if_neg hleg] at hx
          simp at hx
      · obtain ⟨i, hxi, hli⟩ := (ih (s + 1) x).mp hx
        exact ⟨⟨i.1 + 1, by simp⟩, (by show x = s + (i.1 + 1); omega), hli⟩
    · rintro ⟨⟨iv, hiv⟩, hxi, hli⟩
      cases iv with
      | zero =>
        left
        have hli2 : legendre (((a + (b : ℤ) * (pr.2 : ℤ)).tmod (pr.1 : ℤ)
            + (pr.1 : ℤ)).tmod (pr.1 : ℤ)).toNat pr.1 = pr.1 - 1 := hli
        rw [if_pos hli2]
        simp only [List.mem_singleton]
        have h0 : x = s + 0 := hxi
        omega
      | succ j =>
        right
        apply (ih (s + 1) x).mpr
        have hj : j < rest.length := by
          simp only [List.length_cons] at hiv
          omega
        have h1 : x = s + (j + 1) := hxi
        exact ⟨⟨j, hj⟩, (by show x = s + 1 + j; omega), hli⟩

theorem quadCharBits_mem_range (a : ℤ) (b : ℕ) :
    ∀ (base : List (ℕ × ℕ)) (startIdx : ℕ) (x : ℕ),
      x ∈ quadCharBits a b base startIdx → startIdx ≤ x ∧ x < startIdx + base.length := by
  intro base startIdx x hx
  obtain ⟨i, hxi, -⟩ := (quadCharBits_mem a b base startIdx x).mp hx
  have := i.2
  omega

/-- The candidate-processing block of `factorize` (`src/nfs.rs`): the
gcd/zero guard, sign bit, rational and algebraic trial division, smoothness
test and quadratic characters.  Returns the `ones_pos` column exactly when
the pair `(a, b)` is appended as a relation.  `nt::gcd` is the bignum
facade's gcd (`Nat.gcd`); Rust `%` on `i64` is `Int.tmod`. -/
def relationStep (rational_base algebraic_base quad_char_base : List (ℕ × ℕ))
    (m : ℕ) (f : List ℤ) (a : ℤ) (b : ℕ) : Option (List ℕ) :=
  if Nat.gcd (Int.tmod a (b : ℤ) + (b : ℤ)).toNat b ≠ 1 ∨ a = 0 then none
  else if (divideOut rational_base 1 (a + (b : ℤ) * (m : ℤ)).natAbs).2 = 1 ∧
      (divideOutAlg a b algebraic_base (1 + rational_base.length) (norm f a b)).2 = 1 then
    some ((if a + (b : ℤ) * (m : ℤ) < 0 then [0] else []) ++
      (divideOut rational_base 1 (a + (b : ℤ) * (m : ℤ)).natAbs).1 ++
      (divideOutAlg a b algebraic_base (1 + rational_base.length) (norm f a b)).1 ++
      quadCharBits a b quad_char_base (1 + rational_base.length + algebraic_base.length))
  else none

theorem divideOut_zero (base : List (ℕ × ℕ)) : ∀ s, (divideOut base s 0).2 = 0 := by
  induction base with
  | nil => intro s; rfl
  | cons pr rest ih =>
    intro s
    obtain ⟨p, u⟩ := pr
    rw [divideOut_cons]
    have h0 : removeFactor p 0 = (0, 0) := by
      rw [removeFactor]
      rfl
    rw [h0]
    exact ih (s + 1)

theorem divideOutAlg_zero (a : ℤ) (b : ℕ) (base : List (ℕ × ℕ)) :
    ∀ s, (divideOutAlg a b base s 0).2 = 0 := by
  induction base with
  | nil => intro s; rfl
  | cons pr rest ih =>
    intro s
    rw [divideOutAlg]
    by_cases hg : algGuard a b pr
    · rw [if_pos hg]
      have h0 : (removeFactorInt pr.1 0).2 = 0 := by
        show (0 : ℤ).sign * ((removeFactor pr.1 (0 : ℤ).natAbs).2 : ℤ) = 0
        simp
      simp only [h0]
      exact ih (s + 1)
    · rw [if_neg hg]
      exact ih (s + 1)

theorem tmod_lower_bound (a b : ℤ) (hb : 0 < b) : -b < Int.tmod a b := by
  rcases le_or_lt 0 a with ha | ha
  · have := Int.tmod_nonneg b ha
    omega
  · have hn : 0 ≤ -a := by omega
    have h1 : Int.tmod a b = -(Int.tmod (-a) b) := by
      rw [Int.tmod_def (-a) b, Int.neg_tdiv, Int.tmod_def a b]
      ring
    have h2 : Int.tmod (-a) b = (-a) % b := Int.tmod_eq_emod hn (le_of_lt hb)
    have h3 : (-a) % b < b := Int.emod_lt_of_pos _ hb
    have h4 : 0 ≤ (-a) % b := Int.emod_nonneg _ (by omega)
    omega

theorem int_gcd_add_mul (a b k : ℤ) : Int.gcd (a + b * k) b = Int.gcd a b := by
  apply Nat.dvd_antisymm
  · have h1 : (↑(Int.gcd (a + b * k) b) : ℤ) ∣ a := by
      have hl := Int.gcd_dvd_left (a := a + b * k) (b := b)
      have hr := Int.gcd_dvd_right (a := a + b * k) (b := b)
      have h2 := dvd_sub hl (hr.mul_right k)
      simpa using h2
    exact Int.natCast_dvd_natCast.mp (Int.dvd_gcd h1 Int.gcd_dvd_right)
  · have h1 : (↑(Int.gcd a b) : ℤ) ∣ a + b * k := by
      have hl := Int.gcd_dvd_left (a := a) (b := b)
      have hr := Int.gcd_dvd_right (a := a) (b := b)
      exact dvd_add hl (hr.mul_right k)
    exact Int.natCast_dvd_natCast.mp (Int.dvd_gcd h1 Int.gcd_dvd_right)

theorem gcd_guard_eq (a : ℤ) (b : ℕ) (hb : 1 ≤ b) :
    Nat.gcd (Int.tmod a (b : ℤ) + (b : ℤ)).toNat b = Int.gcd a (b : ℤ) := by
  have hbpos : (0 : ℤ) < (b : ℤ) := by exact_mod_cast hb
  have hlow := tmod_lower_bound a (b : ℤ) hbpos
  have hnn : 0 ≤ Int.tmod a (b : ℤ) + (b : ℤ) := by omega
  have hcast : ((Int.tmod a (b : ℤ) + (b : ℤ)).toNat : ℤ) = Int.tmod a (b : ℤ) + (b : ℤ) :=
    Int.toNat_of_nonneg hnn
  have h1 : Nat.gcd (Int.tmod a (b : ℤ) + (b : ℤ)).toNat b
      = Int.gcd (((Int.tmod a (b : ℤ) + (b : ℤ)).toNat : ℕ) : ℤ) ((b : ℕ) : ℤ) := by
    rw [Int.gcd_natCast_natCast]
  rw [h1, hcast]
  have h2 : Int.tmod a (b : ℤ) + (b : ℤ) = a + (b : ℤ) * (1 - Int.tdiv a (b : ℤ)) := by
    have h3 := Int.tmod_def a (b : ℤ)
    rw [h3]
    ring
  rw [h2, int_gcd_add_mul]

theorem algGuard_unique (a : ℤ) (b : ℕ) (hgcd : Int.gcd a (b : ℤ) = 1)
    (x y : ℕ × ℕ) (hx : x.1.Prime) (hrx : x.2 < x.1) (hry : y.2 < y.1)
    (hne : x ≠ y) (heq : x.1 = y.1) : ¬(algGuard a b x ∧ algGuard a b y) := by
  rintro ⟨h1, h2⟩
  have hd1 : (x.1 : ℤ) ∣ (a + (b : ℤ) * x.2) := Int.dvd_of_tmod_eq_zero h1
  have hd2 : (x.1 : ℤ) ∣ (a + (b : ℤ) * y.2) := by
    have := Int.dvd_of_tmod_eq_zero h2
    rwa [← heq] at this
  have hrne : x.2 ≠ y.2 := by
    intro h
    exact hne (Prod.ext_iff.mpr ⟨heq, h⟩)
  have hdiff : (x.1 : ℤ) ∣ (b : ℤ) * ((x.2 : ℤ) - (y.2 : ℤ)) := by
    have h3 := dvd_sub hd1 hd2
    have hsimp : (a + (b : ℤ) * x.2) - (a + (b : ℤ) * y.2)
        = (b : ℤ) * ((x.2 : ℤ) - (y.2 : ℤ)) := by ring
    rwa [hsimp] at h3
  have hprime : Prime (x.1 : ℤ) := Nat.prime_iff_prime_int.mp hx
  have hx2 := hx.two_le
  rcases hprime.dvd_or_dvd hdiff with hb' | hr'
  · have hda : (x.1 : ℤ) ∣ a := by
      have h4 := dvd_sub hd1 (hb'.mul_right (x.2 : ℤ))
      simpa using h4
    have hdg : (x.1 : ℤ) ∣ (↑(Int.gcd a (b : ℤ)) : ℤ) := Int.dvd_gcd hda hb'
    rw [hgcd] at hdg
    have h5 : (x.1 : ℤ) ≤ 1 := Int.le_of_dvd (by norm_num) hdg
    have h6 : (2 : ℤ) ≤ (x.1 : ℤ) := by exact_mod_cast hx2
    omega
  · have habs : ((x.2 : ℤ) - (y.2 : ℤ)) ≠ 0 := by
      intro h
      apply hrne
      have : (x.2 : ℤ) = (y.2 : ℤ) := by omega
      exact_mod_cast this
    have h7 : (x.1 : ℤ) ∣ |(x.2 : ℤ) - (y.2 : ℤ)| := (dvd_abs _ _).mpr hr'
    have h8 : (x.1 : ℤ) ≤ |(x.2 : ℤ) - (y.2 : ℤ)| := Int.le_of_dvd (abs_pos.mpr habs) h7
    have h9 : |(x.2 : ℤ) - (y.2 : ℤ)| < (x.1 : ℤ) := by
      rw [abs_lt]
      have hxx : (x.2 : ℤ) < (x.1 : ℤ) := by exact_mod_cast hrx
      have hyy : (y.2 : ℤ) < (y.1 : ℤ) := by exact_mod_cast hry
      have hxy : (y.1 : ℤ) = (x.1 : ℤ) := by exact_mod_cast heq.symm
      constructor <;> omega
    omega

/-- C1: Relation soundness.  Whenever `factorize`'s candidate loop appends a
relation `(a, b)` with column `ones` (for sieve line `b ≥ 1`, with a rational
base of distinct primes and an algebraic base of distinct prime-ideal pairs
`(p, r)` with `r < p`), then: `a ≠ 0`; `gcd(|a|, b) = 1`; `|a + b·m|` factors
completely over the rational base (residual 1) and the norm factors completely
over the divisibility-guarded algebraic base (residual 1); bit 0 is set iff
`a + b·m < 0`; the bit of rational prime `i` is set iff the exponent of that
prime in `|a + b·m|` is odd; the bit of algebraic entry `i` is set iff its
guard `p ∣ a + b·r` holds and the exponent of `p` in the norm is odd; and the
bit of quadratic character `i` is set iff
`legendre((a + b·s) mod p, p) = p − 1`. -/
theorem relationStep_sound
    (rational_base algebraic_base quad_char_base : List (ℕ × ℕ))
    (m : ℕ) (f : List ℤ) (a : ℤ) (b : ℕ) (ones : List ℕ)
    (hb : 1 ≤ b)
    (hrp : ∀ pr ∈ rational_base, (pr.1 : ℕ).Prime)
    (hrd : (rational_base.map Prod.fst).Nodup)
    (hap : ∀ pr ∈ algebraic_base, (pr.1 : ℕ).Prime ∧ pr.2 < pr.1)
    (had : algebraic_base.Nodup)
    (happ : relationStep rational_base algebraic_base quad_char_base m f a b = some ones) :
    a ≠ 0 ∧ Int.gcd a (b : ℤ) = 1 ∧
    (a + (b : ℤ) * (m : ℤ)).natAbs
      = (rational_base.map fun pr =>
          pr.1 ^ (a + (b : ℤ) * (m : ℤ)).natAbs.factorization pr.1).prod ∧
    norm f a b = (algebraic_base.map fun pr => if algGuard a b pr
        then (pr.1 : ℤ) ^ ((norm f a b).natAbs.factorization pr.1) else 1).prod ∧
    (0 ∈ ones ↔ a + (b : ℤ) * (m : ℤ) < 0) ∧
    (∀ i : Fin rational_base.length, (1 + i.1) ∈ ones ↔
      Odd ((a + (b : ℤ) * (m : ℤ)).natAbs.factorization (rational_base.get i).1)) ∧
    (∀ i : Fin algebraic_base.length, (1 + rational_base.length + i.1) ∈ ones ↔
      (algGuard a b (algebraic_base.get i) ∧
        Odd ((norm f a b).natAbs.factorization (algebraic_base.get i).1))) ∧
    (∀ i : Fin quad_char_base.length,
      (1 + rational_base.length + algebraic_base.length + i.1) ∈ ones ↔
        legendre (((a + (b : ℤ) * ((quad_char_base.get i).2 : ℤ)).tmod
            ((quad_char_base.get i).1 : ℤ) + ((quad_char_base.get i).1 : ℤ)).tmod
            ((quad_char_base.get i).1 : ℤ)).toNat (quad_char_base.get i).1
          = (quad_char_base.get i).1 - 1) := by
  rw [relationStep] at happ
  by_cases hg : Nat.gcd (Int.tmod a (b : ℤ) + (b : ℤ)).toNat b ≠ 1 ∨ a = 0
  · rw [if_pos hg] at happ
    exact absurd happ (by simp)
  rw [if_neg hg] at happ
  push_neg at hg
  obtain ⟨hguard, ha0⟩ := hg
  have hgcd : Int.gcd a (b : ℤ) = 1 := by
    rw [← gcd_guard_eq a b hb]
    exact hguard
  by_cases hsm : (divideOut rational_base 1 (a + (b : ℤ) * (m : ℤ)).natAbs).2 = 1 ∧
      (divideOutAlg a b algebraic_base (1 + rational_base.length) (norm f a b)).2 = 1
  swap
  · rw [if_neg hsm] at happ
    exact absurd happ (by simp)
  rw [if_pos hsm] at happ
  obtain ⟨hrat1, halg1⟩ := hsm
  have hones := (Option.some.inj happ).symm
  subst hones
  have hnum_ne : (a + (b : ℤ) * (m : ℤ)).natAbs ≠ 0 := by
    intro h0
    rw [h0, divideOut_zero rational_base 1] at hrat1
    exact absurd hrat1 (by decide)
  have hnorm_ne : norm f a b ≠ 0 := by
    intro h0
    rw [h0, divideOutAlg_zero a b algebraic_base (1 + rational_base.length)] at halg1
    exact absurd halg1 (by decide)
  have hpair : List.Pairwise
      (fun x y => x.1 = y.1 → ¬(algGuard a b x ∧ algGuard a b y)) algebraic_base := by
    refine List.Pairwise.imp_of_mem ?_ had
    intro x y hx hy hne heq
    exact algGuard_unique a b hgcd x y (hap x hx).1 (hap x hx).2 (hap y hy).2 hne heq
  obtain ⟨hr_prod, hr_res, hr_mem⟩ :=
    divideOut_spec rational_base 1 (a + (b : ℤ) * (m : ℤ)).natAbs hnum_ne hrp hrd
  obtain ⟨ha_prod, ha_res, ha_mem⟩ :=
    divideOutAlg_spec a b algebraic_base (1 + rational_base.length) (norm f a b)
      hnorm_ne (fun pr hpr => (hap pr hpr).1) hpair
  rw [hrat1, mul_one] at hr_prod
  rw [halg1, mul_one] at ha_prod
  have hr_range := divideOut_mem_range rational_base 1 (a + (b : ℤ) * (m : ℤ)).natAbs
  have ha_range := divideOutAlg_mem_range a b algebraic_base
    (1 + rational_base.length) (norm f a b)
  have hq_range := quadCharBits_mem_range a b quad_char_base
    (1 + rational_base.length + algebraic_base.length)
  have hq_mem := quadCharBits_mem a b quad_char_base
    (1 + rational_base.length + algebraic_base.length)
  refine ⟨ha0, hgcd, hr_prod, ha_prod, ?_, ?_, ?_, ?_⟩
  · constructor
    · intro hx
      simp only [List.mem_append] at hx
      rcases hx with ((hx | hx) | hx) | hx
      · by_cases hlt : a + (b : ℤ) * (m : ℤ) < 0
        · exact hlt
        · rw [if_neg hlt] at hx
          simp at hx
      · have := hr_range 0 hx
        omega
      · have := ha_range 0 hx
        omega
      · have := hq_range 0 hx
        omega
    · intro hlt
      simp only [List.mem_append]
      left; left; left
      rw [if_pos hlt]
      exact List.mem_singleton.mpr rfl
  · intro i
    have hi2 := i.2
    constructor
    · intro hx
      simp only [List.mem_append] at hx
      rcases hx with ((hx | hx) | hx) | hx
      · by_cases hlt : a + (b : ℤ) * (m : ℤ) < 0
        · rw [if_pos hlt] at hx
          simp only [List.mem_singleton] at hx
          omega
        · rw [if_neg hlt] at hx
          simp at hx
      · obtain ⟨j, hj, hodd⟩ := (hr_mem _).mp hx
        have hij : i = j := Fin.ext (by omega)
        rw [hij]
        exact hodd
      · have := ha_range _ hx
        omega
      · have := hq_range _ hx
        omega
    · intro hodd
      simp only [List.mem_append]
      left; left; right
      exact (hr_mem _).mpr ⟨i, rfl, hodd⟩
  · intro i
    have hi2 := i.2
    constructor
    · intro hx
      simp only [List.mem_append] at hx
      rcases hx with ((hx | hx) | hx) | hx
      · by_cases hlt : a + (b : ℤ) * (m : ℤ) < 0
        · rw [if_pos hlt] at hx
          simp only [List.mem_singleton] at hx
          omega
        · rw [if_neg hlt] at hx
          simp at hx
      · have := hr_range _ hx
        omega
      · obtain ⟨j, hj, hgj, hodd⟩ := (ha_mem _).mp hx
        have hij : i = j := Fin.ext (by omega)
        rw [hij]
        exact ⟨hgj, hodd⟩
      · have := hq_range _ hx
        omega
    · rintro ⟨hgi, hodd⟩
      simp only [List.mem_append]
      left; right
      exact (ha_mem _).mpr ⟨i, rfl, hgi, hodd⟩
  · intro i
    have hi2 := i.2
    constructor
    · intro hx
      simp only [List.mem_append] at hx
      rcases hx with ((hx | hx) | hx) | hx
      · by_cases hlt : a + (b : ℤ) * (m : ℤ) < 0
        · rw [if_pos hlt] at hx
          simp only [List.mem_singleton] at hx
          omega
        · rw [if_neg hlt] at hx
          simp at hx
      · have := hr_range _ hx
        omega
      · have := ha_range _ hx
        omega
      · obtain ⟨j, hj, hlj⟩ := (hq_mem _).mp hx
        have hij : i = j := Fin.ext (by omega)
        rw [hij]
        exact hlj
    · intro hleg
      simp only [List.mem_append]
      right
      exact (hq_mem _).mpr ⟨i, rfl, hleg⟩

theorem relationStep_sound_witness :
    relationStep [(2, 0), (3, 1), (5, 0), (7, 3)] [(2, 0), (3, 1), (7, 3)] [(11, 10)]
        10 [-10, 1] 2 1 = some [2, 6] ∧
      (2 : ℤ) ≠ 0 ∧ Int.gcd 2 ((1 : ℕ) : ℤ) = 1 := by
  have h := relationStep_sound [(2, 0), (3, 1), (5, 0), (7, 3)] [(2, 0), (3, 1), (7, 3)]
    [(11, 10)] 10 [-10, 1] 2 1 [2, 6]
    (by decide) (by decide) (by decide) (by decide) (by decide) (by decide)
  exact ⟨by decide, h.1, h.2.1⟩

theorem trailingZerosGo_odd :
    ∀ fuel x, 0 < x → x < 2 ^ fuel → Odd (x / 2 ^ trailingZerosGo fuel x) := by
  intro fuel
  induction fuel with
  | zero => intro x hx hlt; omega
  | succ fuel ih =>
    intro x hx hlt
    rw [trailingZerosGo]
    by_cases h : x % 2 = 1
    · simp only [h, if_pos]
      rw [pow_zero, Nat.div_one]
      exact Nat.odd_iff.mpr h
    · simp only [h, if_false]
      have h2 : 2 ∣ x := by omega
      obtain ⟨y, rfl⟩ := h2
      have hy : 0 < y := by omega
      have hylt : y < 2 ^ fuel := by
        rw [pow_succ] at hlt
        omega
      have := ih y hy hylt
      rw [Nat.mul_div_cancel_left y (by norm_num : 0 < 2)]
      rw [pow_add, pow_one, Nat.mul_div_mul_left _ _ (by norm_num : 0 < 2)]
      exact this

theorem mrInner_prime (p : ℕ) (hp : p.Prime) (hp3 : 3 ≤ p) :
    ∀ k x, x < p → x ^ (2 ^ k) % p = 1 → mrInner p k x = true := by
  haveI : Fact p.Prime := ⟨hp⟩
  intro k
  induction k with
  | zero =>
    intro x hx h1
    rw [pow_zero, pow_one, Nat.mod_eq_of_lt hx] at h1
    simp [mrInner, h1]
  | succ k ih =>
    intro x hx h1
    rw [mrInner]
    by_cases hc : (x * x % p == 1 && x != 1 && x != p - 1) = true
    · exfalso
      simp only [Bool.and_eq_true, beq_iff_eq, bne_iff_ne] at hc
      obtain ⟨⟨hy1, hx1⟩, hxp1⟩ := hc
      have hsq : ((x : ZMod p)) * (x : ZMod p) = 1 := by
        have hcast : (((x * x % p : ℕ)) : ZMod p) = ((x : ZMod p)) * (x : ZMod p) := by
          rw [ZMod.natCast_mod, Nat.cast_mul]
        rw [hy1] at hcast
        rw [← hcast]
        norm_num
      rcases mul_self_eq_one_iff.mp hsq with h | h
      · exact hx1 (natCast_zmod_inj p x 1 (by omega) hx (by omega)
          (by rw [h]; norm_num))
      · apply hxp1
        apply natCast_zmod_inj p x (p - 1) (by omega) hx (by omega)
        rw [h]
        have hps : ((p - 1 : ℕ) : ZMod p) = (p : ZMod p) - 1 := by
          rw [Nat.cast_sub (by omega)]
          norm_num
        rw [hps, ZMod.natCast_self]
        ring
    · rw [if_neg hc]
      apply ih (x * x % p) (Nat.mod_lt _ (by omega))
      have hmod : (x * x % p) ^ 2 ^ k % p = (x * x) ^ 2 ^ k % p :=
        (Nat.mod_modEq (x * x) p).pow (2 ^ k)
      rw [hmod, ← sq, ← pow_mul]
      have he : 2 * 2 ^ k = 2 ^ (k + 1) := by
        rw [pow_succ]
        ring
      rw [he]
      exact h1

theorem mrBase_prime (p : ℕ) (hp : p.Prime) (hp3 : 3 ≤ p) (hlt : p < 2 ^ 32)
    (a : ℕ) (ha1 : 1 ≤ a) (ha : a < p) : mrBase p a = true := by
  haveI : Fact p.Prime := ⟨hp⟩
  have hdvd : 2 ^ trailingZeros (p - 1) ∣ p - 1 := pow_trailingZeros_dvd (p - 1)
  have hodd : Odd ((p - 1) / 2 ^ trailingZeros (p - 1)) :=
    trailingZerosGo_odd 32 (p - 1) (by omega) (by omega)
  have hu1 : 1 ≤ (p - 1) / 2 ^ trailingZeros (p - 1) := by
    rcases hodd with ⟨t, ht⟩
    omega
  have hXlt : mod_exp a ((p - 1) / 2 ^ trailingZeros (p - 1)) p < p :=
    mod_exp_lt _ _ _ hu1 (by omega)
  rw [mrBase]
  apply mrInner_prime p hp hp3 _ _ hXlt
  have ha0 : (a : ZMod p) ≠ 0 := by
    intro h0
    have hdva : p ∣ a := (ZMod.natCast_zmod_eq_zero_iff_dvd a p).mp h0
    have := Nat.le_of_dvd (by omega) hdva
    omega
  have hmuls : (p - 1) / 2 ^ trailingZeros (p - 1) * 2 ^ trailingZeros (p - 1) = p - 1 :=
    Nat.div_mul_cancel hdvd
  have hzm : ((mod_exp a ((p - 1) / 2 ^ trailingZeros (p - 1)) p ^
      2 ^ trailingZeros (p - 1) % p : ℕ) : ZMod p) = ((1 : ℕ) : ZMod p) := by
    rw [ZMod.natCast_mod, Nat.cast_pow, mod_exp_zmod _ _ _ hu1, ← pow_mul, hmuls]
    rw [ZMod.pow_card_sub_one_eq_one ha0]
    norm_num
  exact natCast_zmod_inj p _ 1 (by omega) (Nat.mod_lt _ (by omega)) (by omega) hzm

theorem miller_rabin_true_of_prime (p : ℕ) (hp : p.Prime) (hlt : p < 2 ^ 32) :
    miller_rabin p = true := by
  by_cases h2 : p = 2
  · rw [miller_rabin, if_pos h2]
  · have hp3 : 3 ≤ p := by
      have := hp.two_le
      omega
    have hbase : ∀ a : ℕ, (a % p == 0 || mrBase p (a % p)) = true := by
      intro a
      by_cases h0 : a % p = 0
      · simp [h0]
      · have := mrBase_prime p hp hp3 hlt (a % p) (by omega) (Nat.mod_lt _ (by omega))
        simp [this]
    rw [miller_rabin, if_neg h2]
    simp only [MILLER_RABIN_BASES, List.all_cons, List.all_nil, hbase,
      Bool.and_self, Bool.and_true]

theorem miller_rabin_true_of_prime_witness :
    Nat.Prime 65537 ∧ 65537 < 2 ^ 32 ∧ miller_rabin 65537 = true :=
  ⟨by norm_num, by norm_num, miller_rabin_true_of_prime 65537 (by norm_num) (by norm_num)⟩

end NFS
